import Mathlib

/-!
Verification of the backup utility in src/backup.py.

The file shallowly embeds the program: filesystem state is a finite
association list from paths to entries, the incremental differ
(sync_folders), the per-task runner (perform_backup) and the task
selection step of main are translated as executable Lean functions,
and the specification claims about them are settled as theorems.

Modelling conventions, fixed once here:
* paths are lists of components kept in canonical form (no trailing
  separator), so os.path.normpath is the identity and os.path.basename
  is the last component;
* the wall clock (datetime.now().strftime) and the external archiver
  child process are oracles passed as function arguments;
* log records stand in for the logging sink, which is the only place
  the program reports task outcomes;
* every filesystem mutation of the program is a guarded insertion, so
  filesystem state only ever grows by appending fresh entries.
-/

set_option autoImplicit false

namespace Backup

/-- Filesystem paths as lists of components, in canonical form. -/
abbrev Path := List String

/-- One filesystem entry: a regular file carrying its content and its
modification time (the metadata shutil.copy2 preserves), or a directory. -/
inductive Entry where
  | file (content : String) (mtime : Nat)
  | dir
deriving DecidableEq

/-- Filesystem state: a finite association list from paths to entries.
Lookup takes the first match; the program only appends entries at paths
it has checked to be absent, so the first match is authoritative. -/
abbrev FS := List (Path × Entry)

/-- Entry at a path, if any (the os.stat view of the filesystem). -/
def lookupFS (fs : FS) (p : Path) : Option Entry :=
  (fs.find? (fun pe => pe.1 == p)).map Prod.snd

/-- os.path.exists: true when any entry, file or directory, sits at the path. -/
def existsFS (fs : FS) (p : Path) : Bool :=
  (lookupFS fs p).isSome

/-- All prefixes of a path, from the empty root up to the path itself. -/
def prefixesOf (p : Path) : List Path :=
  (List.range (p.length + 1)).map (fun k => p.take k)

/-- os.makedirs(p, exist_ok=True): create the directory and every missing
ancestor.  CPython raises when an existing ancestor is a regular file;
the theorems about the differ carry a cleanliness hypothesis confining
them to states where that cannot happen. -/
def makedirs (fs : FS) (p : Path) : FS :=
  fs ++ ((prefixesOf p).filter (fun q => !existsFS fs q)).map (fun q => (q, Entry.dir))

/-- shutil.copy2: copy one file, content and modification metadata alike,
to a new path.  Callers only invoke it on files just listed by the walk,
so the source entry is present; on a missing source, where CPython would
raise, the state is returned unchanged. -/
def copyFile (fs : FS) (src dst : Path) : FS :=
  match lookupFS fs src with
  | some e => fs ++ [(dst, e)]
  | none => fs

/-- Names of the regular files that are direct children of directory d. -/
def childFiles (fs : FS) (d : Path) : List String :=
  fs.filterMap (fun pe =>
    match pe.2 with
    | Entry.dir => none
    | Entry.file _ _ =>
        if pe.1.length == d.length + 1 && d.isPrefixOf pe.1 then pe.1.getLast? else none)

/-- Paths of the directory entries strictly below src. -/
def subdirPaths (fs : FS) (src : Path) : List Path :=
  fs.filterMap (fun pe =>
    if pe.2 == Entry.dir && src.isPrefixOf pe.1 && pe.1 != src then some pe.1 else none)

/-- os.walk(src): every directory of the subtree rooted at src paired with
the names of its regular files.  os.walk yields nothing when src is not a
directory.  The order of traversal is irrelevant to the program, so the
embedding uses the entry-list order. -/
def walkFS (fs : FS) (src : Path) : List (Path × List String) :=
  if lookupFS fs src = some Entry.dir then
    (src, childFiles fs src) :: (subdirPaths fs src).map (fun d => (d, childFiles fs d))
  else []

/-- Severity of a log record. -/
inductive LogLevel where
  | info
  | warning
  | error
deriving DecidableEq

/-- One record sent to the logging sink. -/
structure LogMsg where
  level : LogLevel
  text : String
deriving DecidableEq

/-- Shorthand for an info record. -/
def linfo (t : String) : LogMsg := ⟨LogLevel.info, t⟩

/-- Shorthand for a warning record. -/
def lwarn (t : String) : LogMsg := ⟨LogLevel.warning, t⟩

/-- Shorthand for an error record. -/
def lerror (t : String) : LogMsg := ⟨LogLevel.error, t⟩

/-- Effect of one sync_folders call: the filesystem afterwards, the final
value of the internal new_files_count counter, the log records emitted,
and the value the Python function returns (it falls off the end of the
function body, hence always None). -/
structure SyncResult where
  fs : FS
  count : Nat
  log : List LogMsg
  ret : Option Nat
deriving DecidableEq

/-- Body of the inner file loop of sync_folders: copy the file unless any
entry already exists at its destination path, counting the copies. -/
def syncFileStep (root dest_dir : Path) (a : FS × Nat) (f : String) : FS × Nat :=
  let source_file := root ++ [f]
  let dest_file := dest_dir ++ [f]
  if existsFS a.1 dest_file then a
  else (copyFile a.1 source_file dest_file, a.2 + 1)

/-- Body of the walk loop of sync_folders for one (root, files) pair:
compute the relative path, ensure the mirrored directory exists, then run
the file loop. -/
def syncDirStep (source destination : Path) (acc : FS × Nat) (rf : Path × List String) : FS × Nat :=
  let rel := rf.1.drop source.length
  let dest_dir := if rel = [] then destination else destination ++ rel
  let fs1 := if existsFS acc.1 dest_dir then acc.1 else makedirs acc.1 dest_dir
  rf.2.foldl (syncFileStep rf.1 dest_dir) (fs1, acc.2)

/-- sync_folders(source, destination) of src/backup.py: ensure the
destination exists, walk the source tree, mirror directories and copy the
files absent at their destination paths, then log the count of newly
copied files.  The walk list is the snapshot taken after the destination
directory is ensured; the theorems below restrict to source and
destination roots neither of which contains the other, where the snapshot
agrees with the lazy walk of os.walk. -/
def sync_folders (fs : FS) (source destination : Path) : SyncResult :=
  let fs0 := if existsFS fs destination then fs else makedirs fs destination
  let res := (walkFS fs0 source).foldl (syncDirStep source destination) (fs0, 0)
  { fs := res.1
    count := res.2
    log := [if res.2 > 0 then
              linfo ("Incremental backup: Copied " ++ toString res.2 ++ " new files.")
            else linfo "Incremental backup: No new files to copy."]
    ret := none }

/-- One task descriptor from the configuration: the fields task.get reads
in perform_backup and main. -/
structure Task where
  source : Option Path
  name : Option String
  type : Option String
  run : Option Bool
deriving DecidableEq

/-- The backup_settings object: the fields settings.get reads. -/
structure Settings where
  destination : Option Path
  timestamp_format : Option String
  seven_zip_path : Option String
deriving DecidableEq

/-- Rendering of a component path inside log and command strings. -/
def pathStr (p : Path) : String := String.intercalate "/" p

/-- Python exceptions the embedded code can raise.  The notADirectory
constructor also covers a missing copytree source (CPython distinguishes
FileNotFoundError there; nothing below depends on the distinction). -/
inductive PyErr where
  | typeError (msg : String)
  | fileExistsError (path : Path)
  | notADirectory (path : Path)
deriving DecidableEq

/-- Text of an exception, as interpolated into the failure log record. -/
def PyErr.message : PyErr → String
  | PyErr.typeError m => m
  | PyErr.fileExistsError p => "FileExistsError: " ++ pathStr p
  | PyErr.notADirectory p => "NotADirectoryError: " ++ pathStr p

/-- aioshutil.copytree: raises when the source is not a directory or when
the destination already exists, otherwise creates the destination
directory and copies the entire source subtree, rebased onto it. -/
def copytree (fs : FS) (src dst : Path) : Except PyErr FS :=
  if lookupFS fs src ≠ some Entry.dir then Except.error (PyErr.notADirectory src)
  else if existsFS fs dst then Except.error (PyErr.fileExistsError dst)
  else Except.ok (fs ++ (dst, Entry.dir) ::
    fs.filterMap (fun pe =>
      if src.isPrefixOf pe.1 && pe.1 != src then some (dst ++ pe.1.drop src.length, pe.2) else none))

/-- Command line perform_backup builds for the external archiver. -/
def zipCmd (seven_zip : String) (dest_path source : Path) : List String :=
  [seven_zip, "a", pathStr dest_path ++ ".7z", pathStr source]

/-- Oracle for the external archiver child process: from the command line
to exit code, stdout text and stderr text, or to the exception raised
while spawning it (such as a missing executable). -/
abbrev Archiver := List String → Except PyErr (Int × String × String)

/-- Try-block body of perform_backup: dispatch on the backup type.
Returns the log records of the branch, the commands spawned, and either
the updated filesystem or the exception the branch raised.  A nonzero
archiver exit code is not an exception: the branch logs the error record
with the captured stderr and returns normally, exactly as the code does. -/
def runStrategy (backup_type : String) (archiver : Archiver) (fs : FS)
    (source dest_path : Path) (seven_zip name : String) :
    List LogMsg × List (List String) × Except PyErr FS :=
  if backup_type = "zip" then
    let cmd := zipCmd seven_zip dest_path source
    let runMsg := linfo ("Running 7z for task " ++ name ++ ": " ++ String.intercalate " " cmd)
    match archiver cmd with
    | Except.error e => ([runMsg], [], Except.error e)
    | Except.ok (rc, _out, errText) =>
        if rc = 0 then
          ([runMsg, linfo ("Successfully backed up " ++ pathStr source ++ " to "
              ++ pathStr dest_path ++ ".7z using 7-Zip")], [cmd], Except.ok fs)
        else
          ([runMsg, lerror ("7-Zip failed for " ++ pathStr source ++ ": " ++ errText)],
            [cmd], Except.ok fs)
  else if backup_type = "incremental" then
    let r := sync_folders fs source dest_path
    (r.log ++ [linfo ("Successfully synced " ++ pathStr source ++ " to " ++ pathStr dest_path)],
      [], Except.ok r.fs)
  else
    match copytree fs source dest_path with
    | Except.ok fs2 =>
        ([linfo ("Successfully copied " ++ pathStr source ++ " to " ++ pathStr dest_path)],
          [], Except.ok fs2)
    | Except.error e => ([], [], Except.error e)

/-- os.path.basename on a canonical component path: the last component. -/
def os_basename (p : Path) : String := p.getLast?.getD ""

/-- os.path.normpath: the identity on canonical component paths. -/
def os_normpath (p : Path) : Path := p

/-- Default destination root, the ./backups literal of the code. -/
def defaultDestination : Path := ["backups"]

/-- Backup name rule of perform_backup: an incremental name is
name_sourcedir and carries no timestamp; every other type appends the
formatted current time. -/
def backup_name (name source_dir_name backup_type ts : String) : String :=
  if backup_type = "incremental" then name ++ "_" ++ source_dir_name
  else name ++ "_" ++ source_dir_name ++ "_" ++ ts

/-- Observable outcome of one perform_backup call: the filesystem, the
log records (the only channel on which the code reports task outcomes)
and the child processes spawned. -/
structure PBResult where
  fs : FS
  log : List LogMsg
  spawned : List (List String)
deriving DecidableEq

/-- task.get(name, os.path.basename(source)): the logical task name. -/
def nameOf (task : Task) (source : Path) : String :=
  task.name.getD (os_basename source)

/-- settings.get(destination, ./backups): the destination root. -/
def destBaseOf (settings : Settings) : Path :=
  settings.destination.getD defaultDestination

/-- task.get(type, normal): the strategy key the dispatcher switches on. -/
def typeOf (task : Task) : String :=
  task.type.getD "normal"

/-- settings.get(timestamp_format, %Y%m%d_%H%M%S). -/
def tsFormatOf (settings : Settings) : String :=
  settings.timestamp_format.getD "%Y%m%d_%H%M%S"

/-- settings.get(seven_zip_path, 7z). -/
def sevenZipOf (settings : Settings) : String :=
  settings.seven_zip_path.getD "7z"

/-- Destination-root ensuring step of perform_backup: create the root when
absent and log the creation. -/
def ensureRoot (fs : FS) (p : Path) : FS × List LogMsg :=
  if existsFS fs p then (fs, [])
  else (makedirs fs p, [linfo ("Created destination directory: " ++ pathStr p)])

/-- Destination path of one task run: the destination root joined with the
derived backup name (ts is the formatted current time). -/
def destPathOf (task : Task) (settings : Settings) (source : Path) (ts : String) : Path :=
  destBaseOf settings
    ++ [backup_name (nameOf task source) (os_basename (os_normpath source)) (typeOf task) ts]

/-- perform_backup(task, settings) of src/backup.py.  The clock oracle
maps the timestamp format string to the formatted current time.  An
Except.error result is an exception escaping perform_backup itself;
exceptions raised inside the strategy try block never surface here, they
are converted into a failure log record.  Note that task.get(name,
os.path.basename(source)) evaluates its default argument eagerly, so a
missing source raises TypeError at that line, before anything else runs. -/
def perform_backup (clock : String → String) (archiver : Archiver)
    (task : Task) (settings : Settings) (fs : FS) : Except PyErr PBResult :=
  match task.source with
  | none => Except.error (PyErr.typeError "expected str, bytes or os.PathLike object, not NoneType")
  | some source =>
    let name := nameOf task source
    let dest_base := destBaseOf settings
    let backup_type := typeOf task
    let seven_zip := sevenZipOf settings
    if existsFS fs source then
      let mkres := ensureRoot fs dest_base
      let dest_path := destPathOf task settings source (clock (tsFormatOf settings))
      let startMsg := linfo ("Starting " ++ backup_type ++ " backup for task " ++ name)
      let sres := runStrategy backup_type archiver mkres.1 source dest_path seven_zip name
      match sres.2.2 with
      | Except.ok fs2 =>
          Except.ok { fs := fs2
                      log := mkres.2 ++ [startMsg] ++ sres.1
                               ++ [linfo ("Backup for task " ++ name ++ " completed.")]
                      spawned := sres.2.1 }
      | Except.error e =>
          Except.ok { fs := mkres.1
                      log := mkres.2 ++ [startMsg] ++ sres.1
                               ++ [lerror ("Failed backup for task " ++ name ++ ": "
                                     ++ PyErr.message e)]
                      spawned := sres.2.1 }
    else
      Except.ok { fs := fs
                  log := [lwarn ("Source directory does not exist: " ++ pathStr source
                            ++ ". Skipping task " ++ name ++ ".")]
                  spawned := [] }

/-- Name filter of main: with a task_name argument only the descriptors
of that name survive, and an empty result is the no-such-task
configuration error on which main returns before launching anything. -/
def filterByName (taskArg : Option String) (tasks : List Task) : Except String (List Task) :=
  match taskArg with
  | some nm =>
    let matching := tasks.filter (fun t => t.name == some nm)
    if matching.isEmpty then Except.error ("No task found with name " ++ nm)
    else Except.ok matching
  | none => Except.ok tasks

/-- Descriptors main actually launches: after the name filter, a task
whose run flag is false is skipped only when no explicit task name was
given (the run flag defaults to true when missing). -/
def tasksToRun (taskArg : Option String) (tasks : List Task) : Except String (List Task) :=
  match filterByName taskArg tasks with
  | Except.error e => Except.error e
  | Except.ok ts => Except.ok (ts.filter (fun t => taskArg.isSome || t.run.getD true))

/-- Fallback of the try/except of perform_backup, as a function of the
strategy outcome: keep the strategy's filesystem on success, keep the
pre-strategy filesystem when the strategy raised. -/
def recoverFS (fallback : FS) : Except PyErr FS → FS
  | Except.ok f => f
  | Except.error _ => fallback

lemma string_append_cancel_left {a t1 t2 : String} (h : a ++ t1 = a ++ t2) : t1 = t2 := by
  have hd := congrArg String.data h
  simp [String.data_append] at hd
  exact String.ext hd

/-- Outcome of the zip branch when the spawn succeeds and the archiver
exits nonzero: the run record and the error record carrying stderr, one
spawned command, and a normal (non-raising) return. -/
lemma runStrategy_zip (archiver : Archiver) (fs : FS) (source dest_path : Path)
    (seven_zip name : String) (rc : Int) (out err : String)
    (harch : archiver (zipCmd seven_zip dest_path source) = Except.ok (rc, out, err))
    (hrc : rc ≠ 0) :
    runStrategy "zip" archiver fs source dest_path seven_zip name
      = ([linfo ("Running 7z for task " ++ name ++ ": "
            ++ String.intercalate " " (zipCmd seven_zip dest_path source)),
          lerror ("7-Zip failed for " ++ pathStr source ++ ": " ++ err)],
         [zipCmd seven_zip dest_path source], Except.ok fs) := by
  simp only [runStrategy, if_pos rfl]
  rw [harch]
  simp [hrc]

/-- Any backup type other than the zip and incremental keys reaches the
else branch of the dispatcher: no process is spawned and the filesystem
outcome is exactly the copytree outcome. -/
lemma runStrategy_other (bt : String) (archiver : Archiver) (fs : FS) (source dest_path : Path)
    (seven_zip name : String) (h1 : bt ≠ "zip") (h2 : bt ≠ "incremental") :
    (runStrategy bt archiver fs source dest_path seven_zip name).2.1 = []
    ∧ (runStrategy bt archiver fs source dest_path seven_zip name).2.2
        = copytree fs source dest_path := by
  simp only [runStrategy, if_neg h1, if_neg h2]
  cases copytree fs source dest_path <;> simp


lemma lookupFS_cons (pe : Path × Entry) (fs : FS) (q : Path) :
    lookupFS (pe :: fs) q = if pe.1 = q then some pe.2 else lookupFS fs q := by
  by_cases h : pe.1 = q
  · simp [lookupFS, List.find?_cons_of_pos, h]
  · simp only [lookupFS, if_neg h]
    rw [List.find?_cons_of_neg]
    simp [h]

lemma lookupFS_append_left {fs : FS} {q : Path} (l : FS)
    (h : existsFS fs q = true) : lookupFS (fs ++ l) q = lookupFS fs q := by
  induction fs with
  | nil => simp [existsFS, lookupFS] at h
  | cons pe rest ih =>
    by_cases hq : pe.1 = q
    · simp [lookupFS_cons, hq]
    · rw [List.cons_append, lookupFS_cons, lookupFS_cons, if_neg hq, if_neg hq]
      apply ih
      simpa [existsFS, lookupFS_cons, if_neg hq] using h

lemma lookupFS_append_right {fs : FS} {q : Path} (l : FS)
    (h : lookupFS fs q = none) : lookupFS (fs ++ l) q = lookupFS l q := by
  induction fs with
  | nil => simp
  | cons pe rest ih =>
    by_cases hq : pe.1 = q
    · rw [lookupFS_cons, if_pos hq] at h
      cases h
    · rw [lookupFS_cons, if_neg hq] at h
      rw [List.cons_append, lookupFS_cons, if_neg hq]
      exact ih h

lemma lookupFS_eq_none {l : FS} {q : Path} (h : ∀ pe ∈ l, pe.1 ≠ q) :
    lookupFS l q = none := by
  induction l with
  | nil => simp [lookupFS]
  | cons pe rest ih =>
    rw [lookupFS_cons, if_neg (h pe (List.mem_cons_self pe rest))]
    exact ih (fun x hx => h x (List.mem_cons_of_mem pe hx))

lemma lookupFS_append_ne {fs : FS} {q : Path} {l : FS} (h : ∀ pe ∈ l, pe.1 ≠ q) :
    lookupFS (fs ++ l) q = lookupFS fs q := by
  cases hex : existsFS fs q with
  | true => exact lookupFS_append_left l hex
  | false =>
    have hn : lookupFS fs q = none := by
      simpa [existsFS, Option.isSome_iff_exists] using hex
    rw [lookupFS_append_right l hn, hn, lookupFS_eq_none h]

lemma existsFS_iff {fs : FS} {q : Path} : existsFS fs q = true ↔ ∃ e, (q, e) ∈ fs := by
  unfold existsFS lookupFS
  cases hf : List.find? (fun pe => pe.1 == q) fs with
  | none =>
    simp only [Option.map_none', Option.isSome_none, Bool.false_eq_true, false_iff]
    rintro ⟨e, hmem⟩
    have := List.find?_eq_none.mp hf (q, e) hmem
    simp at this
  | some pe =>
    simp only [Option.map_some', Option.isSome_some, true_iff]
    have hq : pe.1 = q := by
      have := List.find?_some hf
      simpa using this
    exact ⟨pe.2, by rw [← hq]; exact (List.mem_of_find?_eq_some hf)⟩

lemma mem_of_lookupFS {fs : FS} {q : Path} {e : Entry} (h : lookupFS fs q = some e) :
    (q, e) ∈ fs := by
  induction fs with
  | nil => simp [lookupFS] at h
  | cons pe rest ih =>
    rw [lookupFS_cons] at h
    by_cases hq : pe.1 = q
    · rw [if_pos hq] at h
      cases h
      exact List.mem_cons.mpr (Or.inl (by rw [← hq]))
    · rw [if_neg hq] at h
      exact List.mem_cons_of_mem pe (ih h)

lemma lookupFS_of_mem {fs : FS} {q : Path} {e : Entry}
    (hkeys : (fs.map Prod.fst).Nodup) (h : (q, e) ∈ fs) : lookupFS fs q = some e := by
  induction fs with
  | nil => cases h
  | cons pe rest ih =>
    rw [List.map_cons, List.nodup_cons] at hkeys
    rcases List.mem_cons.mp h with heq | hmem
    · rw [← heq] at hkeys ⊢
      rw [lookupFS_cons, if_pos rfl]
    · have hne : pe.1 ≠ q := by
        intro hq
        exact hkeys.1 (hq ▸ (List.mem_map.mpr ⟨(q, e), hmem, rfl⟩))
      rw [lookupFS_cons, if_neg hne]
      exact ih hkeys.2 hmem

lemma existsFS_append_left {fs : FS} {q : Path} (l : FS) (h : existsFS fs q = true) :
    existsFS (fs ++ l) q = true := by
  rw [existsFS, lookupFS_append_left l h]
  exact h


/-- Paths touched by the differ all lie on the destination side: at or
below the destination root, or on the ancestor chain it created. -/
def Spine (dst q : Path) : Prop := dst <+: q ∨ q <+: dst

lemma mem_prefixesOf {q p : Path} : q ∈ prefixesOf p ↔ q <+: p := by
  unfold prefixesOf
  rw [List.mem_map]
  constructor
  · rintro ⟨k, _, rfl⟩
    exact List.take_prefix k p
  · intro h
    exact ⟨q.length, by
      rw [List.mem_range]
      exact Nat.lt_succ_of_le h.length_le, (List.prefix_iff_eq_take.mp h).symm⟩

lemma spine_of_prefix {dst q t : Path} (h : q <+: dst ++ t) : Spine dst q := by
  unfold Spine
  exact List.prefix_or_prefix_of_prefix (List.prefix_append dst t) h

lemma not_src_prefix_of_spine {src dst q : Path}
    (hns : ¬ src <+: dst) (hnd : ¬ dst <+: src) (hsp : Spine dst q) : ¬ src <+: q := by
  intro hq
  cases hsp with
  | inl h =>
    cases List.prefix_or_prefix_of_prefix hq h with
    | inl h2 => exact hns h2
    | inr h2 => exact hnd h2
  | inr h => exact hns (hq.trans h)

lemma prefix_append_drop {src root : Path} (h : src <+: root) :
    src ++ root.drop src.length = root := by
  obtain ⟨t, rfl⟩ := h
  rw [List.drop_left]

lemma makedirs_spec (fs : FS) (p : Path) :
    ∃ l, makedirs fs p = fs ++ l ∧ (∀ pe ∈ l, pe.1 <+: p ∧ pe.2 = Entry.dir)
      ∧ existsFS (makedirs fs p) p = true := by
  refine ⟨_, rfl, ?_, ?_⟩
  · intro pe hpe
    rw [List.mem_map] at hpe
    obtain ⟨q, hq, rfl⟩ := hpe
    rw [List.mem_filter] at hq
    exact ⟨mem_prefixesOf.mp hq.1, rfl⟩
  · cases hex : existsFS fs p with
    | true =>
      unfold makedirs existsFS
      rw [lookupFS_append_left _ hex]
      exact hex
    | false =>
      have hn : lookupFS fs p = none := by
        simpa [existsFS, Option.isSome_iff_exists] using hex
      unfold makedirs existsFS
      rw [lookupFS_append_right _ hn]
      have hmem : (p, Entry.dir) ∈ ((prefixesOf p).filter (fun q => !existsFS fs q)).map
          (fun q => (q, Entry.dir)) := by
        rw [List.mem_map]
        exact ⟨p, List.mem_filter.mpr ⟨mem_prefixesOf.mpr (List.prefix_refl p), by simp [hex]⟩, rfl⟩
      have := existsFS_iff.mpr ⟨Entry.dir, hmem⟩
      rwa [existsFS] at this

lemma copyFile_spec (fs : FS) (s d : Path) :
    ∃ l, copyFile fs s d = fs ++ l ∧ ∀ pe ∈ l, pe.1 = d := by
  unfold copyFile
  cases lookupFS fs s with
  | none => exact ⟨[], by simp⟩
  | some e => exact ⟨[(d, e)], rfl, by simp⟩

lemma copyFile_of_lookup {fs : FS} {s : Path} {e : Entry} (d : Path)
    (h : lookupFS fs s = some e) : copyFile fs s d = fs ++ [(d, e)] := by
  unfold copyFile
  rw [h]

lemma childFiles_aux {d : Path} {pe : Path × Entry} {n : String}
    (h : (match pe.2 with
          | Entry.dir => none
          | Entry.file _ _ =>
              if pe.1.length == d.length + 1 && d.isPrefixOf pe.1 then pe.1.getLast? else none)
        = some n) :
    pe.1 = d ++ [n] ∧ ∃ c m, pe.2 = Entry.file c m := by
  rcases pe with ⟨p, e⟩
  cases e with
  | dir => simp at h
  | file c m =>
    simp only at h
    by_cases hc : (p.length == d.length + 1 && d.isPrefixOf p) = true
    · rw [if_pos hc] at h
      rw [Bool.and_eq_true, beq_iff_eq] at hc
      obtain ⟨t, rfl⟩ := List.isPrefixOf_iff_prefix.mp hc.2
      have hl : t.length = 1 := by
        have := hc.1
        rw [List.length_append] at this
        omega
      obtain ⟨x, rfl⟩ := List.length_eq_one.mp hl
      have hx : x = n := by
        have hg : (d ++ [x]).getLast? = some x := by simp
        rw [hg] at h
        exact (Option.some_inj.mp h)
      exact ⟨by rw [hx], c, m, rfl⟩
    · rw [if_neg hc] at h
      cases h

lemma childFiles_mem {fs : FS} {d : Path} {n : String} :
    n ∈ childFiles fs d ↔ ∃ c m, (d ++ [n], Entry.file c m) ∈ fs := by
  unfold childFiles
  rw [List.mem_filterMap]
  constructor
  · rintro ⟨pe, hpe, hf⟩
    obtain ⟨hpath, c, m, hent⟩ := childFiles_aux hf
    exact ⟨c, m, by rw [← hpath, ← hent]; exact hpe⟩
  · rintro ⟨c, m, hmem⟩
    refine ⟨(d ++ [n], Entry.file c m), hmem, ?_⟩
    have h1 : ((d ++ [n] : Path).length == d.length + 1) = true := by simp
    have h2 : d.isPrefixOf (d ++ [n]) = true :=
      List.isPrefixOf_iff_prefix.mpr (List.prefix_append d [n])
    simp [h1, h2]

lemma childFiles_nodup {fs : FS} {d : Path} (hkeys : (fs.map Prod.fst).Nodup) :
    (childFiles fs d).Nodup := by
  induction fs with
  | nil => simp [childFiles]
  | cons pe rest ih =>
    rw [List.map_cons, List.nodup_cons] at hkeys
    unfold childFiles
    rw [List.filterMap_cons]
    cases hf : (match pe.2 with
        | Entry.dir => none
        | Entry.file _ _ =>
            if pe.1.length == d.length + 1 && d.isPrefixOf pe.1 then pe.1.getLast? else none) with
    | none => exact ih hkeys.2
    | some n =>
      rw [List.nodup_cons]
      refine ⟨?_, ih hkeys.2⟩
      intro hmem
      obtain ⟨c, m, hentry⟩ := childFiles_mem.mp hmem
      obtain ⟨hpath, _, _, _⟩ := childFiles_aux hf
      exact hkeys.1 (hpath ▸ List.mem_map.mpr ⟨(d ++ [n], Entry.file c m), hentry, rfl⟩)

lemma subdirPaths_mem {fs : FS} {src p : Path} :
    p ∈ subdirPaths fs src ↔ (p, Entry.dir) ∈ fs ∧ src <+: p ∧ p ≠ src := by
  unfold subdirPaths
  rw [List.mem_filterMap]
  constructor
  · rintro ⟨pe, hpe, hf⟩
    by_cases hc : (pe.2 == Entry.dir && src.isPrefixOf pe.1 && pe.1 != src) = true
    · rw [if_pos hc] at hf
      cases hf
      rw [Bool.and_eq_true, Bool.and_eq_true, beq_iff_eq, bne_iff_ne] at hc
      refine ⟨?_, List.isPrefixOf_iff_prefix.mp hc.1.2, hc.2⟩
      have : pe = (pe.1, Entry.dir) := by
        rw [← hc.1.1]
      rw [← this]
      exact hpe
    · rw [if_neg hc] at hf
      cases hf
  · rintro ⟨hmem, hpre, hne⟩
    refine ⟨(p, Entry.dir), hmem, ?_⟩
    have h1 : src.isPrefixOf p = true := List.isPrefixOf_iff_prefix.mpr hpre
    simp [h1, hne]

lemma subdirPaths_nodup {fs : FS} {src : Path} (hkeys : (fs.map Prod.fst).Nodup) :
    (subdirPaths fs src).Nodup := by
  induction fs with
  | nil => simp [subdirPaths]
  | cons pe rest ih =>
    rw [List.map_cons, List.nodup_cons] at hkeys
    unfold subdirPaths
    rw [List.filterMap_cons]
    cases hf : (if pe.2 == Entry.dir && src.isPrefixOf pe.1 && pe.1 != src
        then some pe.1 else none) with
    | none => exact ih hkeys.2
    | some p =>
      rw [List.nodup_cons]
      refine ⟨?_, ih hkeys.2⟩
      intro hmem
      obtain ⟨hentry, -, -⟩ := subdirPaths_mem.mp hmem
      have hp : pe.1 = p := by
        by_cases hc : (pe.2 == Entry.dir && src.isPrefixOf pe.1 && pe.1 != src) = true
        · rw [if_pos hc] at hf
          exact Option.some_inj.mp hf
        · rw [if_neg hc] at hf
          cases hf
      exact hkeys.1 (hp ▸ List.mem_map.mpr ⟨(p, Entry.dir), hentry, rfl⟩)



lemma childFiles_append (fs l : FS) (d : Path) :
    childFiles (fs ++ l) d = childFiles fs d ++ childFiles l d :=
  List.filterMap_append fs l _

lemma subdirPaths_append (fs l : FS) (src : Path) :
    subdirPaths (fs ++ l) src = subdirPaths fs src ++ subdirPaths l src :=
  List.filterMap_append fs l _

lemma childFiles_eq_nil {l : FS} {src d : Path} (hsd : src <+: d)
    (h : ∀ pe ∈ l, ¬ src <+: pe.1) : childFiles l d = [] := by
  unfold childFiles
  rw [List.filterMap_eq_nil_iff]
  intro pe hpe
  cases hf : (match pe.2 with
      | Entry.dir => none
      | Entry.file _ _ =>
          if pe.1.length == d.length + 1 && d.isPrefixOf pe.1 then pe.1.getLast? else none) with
  | none => rfl
  | some n =>
    obtain ⟨hpath, -⟩ := childFiles_aux hf
    exact absurd (hpath ▸ hsd.trans (List.prefix_append d [n])) (h pe hpe)

lemma subdirPaths_eq_nil {l : FS} {src : Path} (h : ∀ pe ∈ l, ¬ src <+: pe.1) :
    subdirPaths l src = [] := by
  unfold subdirPaths
  rw [List.filterMap_eq_nil_iff]
  intro pe hpe
  rw [if_neg]
  intro hc
  rw [Bool.and_eq_true, Bool.and_eq_true] at hc
  exact h pe hpe (List.isPrefixOf_iff_prefix.mp hc.1.2)

lemma lookupFS_stable_notpre {fs l : FS} {src q : Path} (hq : src <+: q)
    (h : ∀ pe ∈ l, ¬ src <+: pe.1) : lookupFS (fs ++ l) q = lookupFS fs q := by
  apply lookupFS_append_ne
  intro pe hpe heq
  exact h pe hpe (heq ▸ hq)

lemma walkFS_append {fs l : FS} {src : Path} (h : ∀ pe ∈ l, ¬ src <+: pe.1) :
    walkFS (fs ++ l) src = walkFS fs src := by
  unfold walkFS
  rw [lookupFS_stable_notpre (List.prefix_refl src) h]
  by_cases hdir : lookupFS fs src = some Entry.dir
  · rw [if_pos hdir, if_pos hdir]
    rw [childFiles_append, childFiles_eq_nil (List.prefix_refl src) h, List.append_nil]
    rw [subdirPaths_append, subdirPaths_eq_nil h, List.append_nil]
    congr 1
    apply List.map_congr_left
    intro d hd
    obtain ⟨-, hpre, -⟩ := subdirPaths_mem.mp hd
    rw [childFiles_append, childFiles_eq_nil hpre h, List.append_nil]
  · rw [if_neg hdir, if_neg hdir]

/-- Relative source paths of the files listed by a walk: one entry
rel_path ++ [f] per file f of each walked directory. -/
def relsOfWalk (src : Path) : List (Path × List String) → List Path
  | [] => []
  | rf :: rest => rf.2.map (fun f => rf.1.drop src.length ++ [f]) ++ relsOfWalk src rest

lemma mem_relsOfWalk {src : Path} {wl : List (Path × List String)} {r : Path} :
    r ∈ relsOfWalk src wl ↔ ∃ rf ∈ wl, ∃ f ∈ rf.2, r = rf.1.drop src.length ++ [f] := by
  induction wl with
  | nil => simp [relsOfWalk]
  | cons rf rest ih =>
    unfold relsOfWalk
    rw [List.mem_append, ih, List.mem_map]
    constructor
    · rintro (⟨f, hf, rfl⟩ | ⟨rf2, hrf2, f, hf, rfl⟩)
      · exact ⟨rf, List.mem_cons_self rf rest, f, hf, rfl⟩
      · exact ⟨rf2, List.mem_cons_of_mem rf hrf2, f, hf, rfl⟩
    · rintro ⟨rf2, hrf2, f, hf, rfl⟩
      rcases List.mem_cons.mp hrf2 with rfl | hrest
      · exact Or.inl ⟨f, hf, rfl⟩
      · exact Or.inr ⟨rf2, hrest, f, hf, rfl⟩

lemma relsOfWalk_ne_nil {src : Path} {wl : List (Path × List String)} {r : Path}
    (h : r ∈ relsOfWalk src wl) : r ≠ [] := by
  obtain ⟨rf, -, f, -, rfl⟩ := mem_relsOfWalk.mp h
  simp

lemma relsOfWalk_nodup {src : Path} :
    ∀ (wl : List (Path × List String)),
      (∀ rf ∈ wl, src <+: rf.1 ∧ rf.2.Nodup) →
      ((wl.map Prod.fst).Nodup) →
      (relsOfWalk src wl).Nodup := by
  intro wl
  induction wl with
  | nil => intro _ _; simp [relsOfWalk]
  | cons rf rest ih =>
    intro helems hroots
    rw [List.map_cons, List.nodup_cons] at hroots
    unfold relsOfWalk
    rw [List.nodup_append]
    obtain ⟨hpre, hfnd⟩ := helems rf (List.mem_cons_self rf rest)
    refine ⟨?_, ih (fun x hx => helems x (List.mem_cons_of_mem rf hx)) hroots.2, ?_⟩
    · exact hfnd.map_on (fun x _ y _ hxy => by
        have := List.append_cancel_left hxy
        simpa using this)
    · intro r hr1 hr2
      obtain ⟨f, -, rfl⟩ := List.mem_map.mp hr1
      obtain ⟨rf2, hrf2, f2, -, heq⟩ := mem_relsOfWalk.mp hr2
      obtain ⟨hpre2, -⟩ := helems rf2 (List.mem_cons_of_mem rf hrf2)
      have hrel : rf.1.drop src.length = rf2.1.drop src.length := by
        have h1 : (rf.1.drop src.length ++ [f]).dropLast = rf.1.drop src.length := by simp
        have h2 : (rf2.1.drop src.length ++ [f2]).dropLast = rf2.1.drop src.length := by simp
        rw [← h1, heq, h2]
      have hroot : rf.1 = rf2.1 := by
        rw [← prefix_append_drop hpre, ← prefix_append_drop hpre2, hrel]
      exact hroots.1 (hroot ▸ List.mem_map.mpr ⟨rf2, hrf2, rfl⟩)

lemma walkFS_elem {fs : FS} {src : Path} {rf : Path × List String}
    (hkeys : (fs.map Prod.fst).Nodup) (h : rf ∈ walkFS fs src) :
    src <+: rf.1 ∧ lookupFS fs rf.1 = some Entry.dir ∧ rf.2 = childFiles fs rf.1 := by
  unfold walkFS at h
  by_cases hdir : lookupFS fs src = some Entry.dir
  · rw [if_pos hdir] at h
    rcases List.mem_cons.mp h with rfl | hmap
    · exact ⟨List.prefix_refl src, hdir, rfl⟩
    · obtain ⟨d, hd, rfl⟩ := List.mem_map.mp hmap
      obtain ⟨hentry, hpre, -⟩ := subdirPaths_mem.mp hd
      exact ⟨hpre, lookupFS_of_mem hkeys hentry, rfl⟩
  · rw [if_neg hdir] at h
    cases h

lemma walkFS_roots_nodup {fs : FS} {src : Path} (hkeys : (fs.map Prod.fst).Nodup) :
    ((walkFS fs src).map Prod.fst).Nodup := by
  unfold walkFS
  by_cases hdir : lookupFS fs src = some Entry.dir
  · rw [if_pos hdir]
    rw [List.map_cons, List.map_map]
    have hmap : ((subdirPaths fs src).map (Prod.fst ∘ fun d => (d, childFiles fs d)))
        = subdirPaths fs src := by
      rw [List.map_congr_left (fun d _ => rfl)]
      exact List.map_id _
    rw [hmap, List.nodup_cons]
    refine ⟨?_, subdirPaths_nodup hkeys⟩
    intro hmem
    obtain ⟨-, -, hne⟩ := subdirPaths_mem.mp hmem
    exact hne rfl
  · rw [if_neg hdir]
    simp


lemma lookupFS_none_of_existsFS_false {fs : FS} {q : Path} (h : existsFS fs q = false) :
    lookupFS fs q = none := by
  rw [existsFS] at h
  cases hl : lookupFS fs q with
  | none => rfl
  | some e => rw [hl] at h; cases h

/-- Characterization of the inner file loop of one walked directory:
the state only grows by entries at the destination file paths, the
counter advances by the number of files initially absent there, an
initially absent destination receives exactly the source entry, and
every destination file path exists afterwards. -/
lemma sync_inner (fsI : FS) (src dst : Path)
    (hns : ¬ src <+: dst) (hnd : ¬ dst <+: src)
    (root dd : Path) (hpre : src <+: root) (hdst : dst <+: dd) :
    ∀ (files : List String) (acc : FS × Nat) (l : FS),
      acc.1 = fsI ++ l →
      (∀ pe ∈ l, Spine dst pe.1) →
      files.Nodup →
      (∀ f ∈ files, ∃ c m, lookupFS fsI (root ++ [f]) = some (Entry.file c m)) →
      (∀ f ∈ files, lookupFS acc.1 (dd ++ [f]) = lookupFS fsI (dd ++ [f])) →
      ∃ l2,
        (files.foldl (syncFileStep root dd) acc).1 = acc.1 ++ l2 ∧
        (∀ pe ∈ l2, ∃ f ∈ files, pe.1 = dd ++ [f]) ∧
        (files.foldl (syncFileStep root dd) acc).2
          = acc.2 + files.countP (fun f => !existsFS fsI (dd ++ [f])) ∧
        (∀ f ∈ files,
          (existsFS fsI (dd ++ [f]) = false →
            lookupFS (files.foldl (syncFileStep root dd) acc).1 (dd ++ [f])
              = lookupFS fsI (root ++ [f])) ∧
          existsFS (files.foldl (syncFileStep root dd) acc).1 (dd ++ [f]) = true) := by
  intro files
  induction files with
  | nil =>
    intro acc l hacc hsp hnd2 hsrc hstab
    exact ⟨[], by simp, by simp, by simp, by simp⟩
  | cons f rest ih =>
    intro acc l hacc hsp hnodup hsrc hstab
    rw [List.nodup_cons] at hnodup
    have hstab_f := hstab f (List.mem_cons_self f rest)
    rw [List.foldl_cons]
    cases hex : existsFS fsI (dd ++ [f]) with
    | true =>
      have hexa : existsFS acc.1 (dd ++ [f]) = true := by
        rw [existsFS, hstab_f]
        rw [existsFS] at hex
        exact hex
      have hstep : syncFileStep root dd acc f = acc := by
        simp only [syncFileStep]
        rw [if_pos hexa]
      rw [hstep]
      obtain ⟨l2, h1, h2, h3, h4⟩ := ih acc l hacc hsp hnodup.2
        (fun x hx => hsrc x (List.mem_cons_of_mem f hx))
        (fun x hx => hstab x (List.mem_cons_of_mem f hx))
      refine ⟨l2, h1, fun pe hpe => ?_, ?_, ?_⟩
      · obtain ⟨f2, hf2, hp⟩ := h2 pe hpe
        exact ⟨f2, List.mem_cons_of_mem f hf2, hp⟩
      · rw [h3, List.countP_cons]
        simp [hex]
      · intro f2 hf2
        rcases List.mem_cons.mp hf2 with rfl | hf2r
        · refine ⟨fun hfalse => ?_, ?_⟩
          · rw [hfalse] at hex
            cases hex
          · rw [h1]
            exact existsFS_append_left l2 hexa
        · exact h4 f2 hf2r
    | false =>
      have hexa : existsFS acc.1 (dd ++ [f]) = false := by
        rw [existsFS, hstab_f]
        rw [existsFS] at hex
        exact hex
      obtain ⟨c, m, hlook⟩ := hsrc f (List.mem_cons_self f rest)
      have hsrcacc : lookupFS acc.1 (root ++ [f]) = some (Entry.file c m) := by
        rw [hacc, lookupFS_stable_notpre (hpre.trans (List.prefix_append root [f]))
          (fun pe hpe => not_src_prefix_of_spine hns hnd (hsp pe hpe))]
        exact hlook
      have hstep : syncFileStep root dd acc f
          = (acc.1 ++ [(dd ++ [f], Entry.file c m)], acc.2 + 1) := by
        simp only [syncFileStep]
        rw [if_neg (by simp [hexa]), copyFile_of_lookup _ hsrcacc]
      rw [hstep]
      have hacc2 : (acc.1 ++ [(dd ++ [f], Entry.file c m)], acc.2 + 1).1
          = fsI ++ (l ++ [(dd ++ [f], Entry.file c m)]) := by
        rw [← List.append_assoc, ← hacc]
      have hsp2 : ∀ pe ∈ l ++ [(dd ++ [f], Entry.file c m)], Spine dst pe.1 := by
        intro pe hpe
        rcases List.mem_append.mp hpe with hl | hr
        · exact hsp pe hl
        · rcases List.mem_singleton.mp hr with rfl
          exact Or.inl (hdst.trans (List.prefix_append dd [f]))
      have hstab2 : ∀ x ∈ rest,
          lookupFS (acc.1 ++ [(dd ++ [f], Entry.file c m)]) (dd ++ [x])
            = lookupFS fsI (dd ++ [x]) := by
        intro x hx
        rw [lookupFS_append_ne, hstab x (List.mem_cons_of_mem f hx)]
        intro pe hpe
        rcases List.mem_singleton.mp hpe with rfl
        intro heq
        have : f = x := by
          have h2 := List.append_cancel_left heq
          simpa using h2
        exact hnodup.1 (this ▸ hx)
      obtain ⟨l2, h1, h2, h3, h4⟩ := ih (acc.1 ++ [(dd ++ [f], Entry.file c m)], acc.2 + 1)
        (l ++ [(dd ++ [f], Entry.file c m)]) hacc2 hsp2 hnodup.2
        (fun x hx => hsrc x (List.mem_cons_of_mem f hx)) hstab2
      have hself : lookupFS (acc.1 ++ [(dd ++ [f], Entry.file c m)]) (dd ++ [f])
          = some (Entry.file c m) := by
        rw [lookupFS_append_right _ (lookupFS_none_of_existsFS_false hexa)]
        rw [lookupFS_cons, if_pos rfl]
      refine ⟨(dd ++ [f], Entry.file c m) :: l2, ?_, ?_, ?_, ?_⟩
      · rw [h1, List.append_assoc]
        rfl
      · intro pe hpe
        rcases List.mem_cons.mp hpe with rfl | hl2
        · exact ⟨f, List.mem_cons_self f rest, rfl⟩
        · obtain ⟨f2, hf2, hp⟩ := h2 pe hl2
          exact ⟨f2, List.mem_cons_of_mem f hf2, hp⟩
      · rw [h3, List.countP_cons, hex]
        simp
        omega
      · intro f2 hf2
        rcases List.mem_cons.mp hf2 with rfl | hf2r
        · constructor
          · intro _
            rw [h1, lookupFS_append_left _ (by rw [existsFS, hself]; rfl), hself, hlook]
          · rw [h1]
            exact existsFS_append_left l2 (by rw [existsFS, hself]; rfl)
        · exact h4 f2 hf2r


lemma prefix_cancel_left {a s t : Path} (h : a ++ s <+: a ++ t) : s <+: t := by
  obtain ⟨u, hu⟩ := h
  rw [List.append_assoc] at hu
  exact ⟨u, List.append_cancel_left hu⟩

lemma prefix_append_left (a : Path) {s t : Path} (h : s <+: t) : a ++ s <+: a ++ t := by
  obtain ⟨u, rfl⟩ := h
  exact ⟨u, by rw [List.append_assoc]⟩

/-- Every relative path listed by the walk points at a regular file of the
source tree. -/
lemma rels_are_files {fsI : FS} {src : Path} {wl : List (Path × List String)}
    (helems : ∀ rf ∈ wl, src <+: rf.1 ∧
      (∀ f ∈ rf.2, ∃ c m, lookupFS fsI (rf.1 ++ [f]) = some (Entry.file c m))) :
    ∀ r ∈ relsOfWalk src wl, ∃ c m, lookupFS fsI (src ++ r) = some (Entry.file c m) := by
  intro r hr
  obtain ⟨rf, hrf, f, hf, rfl⟩ := mem_relsOfWalk.mp hr
  obtain ⟨hpre, hfiles⟩ := helems rf hrf
  obtain ⟨c, m, hl⟩ := hfiles f hf
  refine ⟨c, m, ?_⟩
  rw [← List.append_assoc, prefix_append_drop hpre]
  exact hl

/-- A directory path the differ creates while mirroring one walked
directory never coincides with the destination path of any walked file:
that would make a source file a prefix of a source directory, which the
well-formedness of the source tree rules out. -/
lemma no_collision_below_root {fsI : FS} {src dst : Path} {rf : Path × List String}
    (hpre : src <+: rf.1)
    (hdir : lookupFS fsI rf.1 = some Entry.dir)
    (hwfroot : ∀ q, q <+: rf.1 → q ≠ rf.1 → lookupFS fsI q = some Entry.dir)
    {r : Path} (hrfile : ∃ c m, lookupFS fsI (src ++ r) = some (Entry.file c m))
    {q : Path} (hq : q <+: dst ++ rf.1.drop src.length) : q ≠ dst ++ r := by
  intro heq
  subst heq
  obtain ⟨c, m, hfile⟩ := hrfile
  have hrrel : r <+: rf.1.drop src.length := prefix_cancel_left hq
  by_cases hreq : r = rf.1.drop src.length
  · rw [hreq, prefix_append_drop hpre, hdir] at hfile
    cases hfile
  · have hsub : src ++ r <+: rf.1 := by
      rw [← prefix_append_drop hpre]
      exact prefix_append_left src hrrel
    have hne2 : src ++ r ≠ rf.1 := by
      intro hh
      rw [← prefix_append_drop hpre] at hh
      exact hreq (List.append_cancel_left hh)
    rw [hwfroot (src ++ r) hsub hne2] at hfile
    cases hfile



/-- Characterization of the full walk loop of sync_folders relative to
the filesystem fsI at call time: the state only grows by entries on the
destination spine, the counter counts exactly the walked files whose
destination path was initially absent, each initially absent destination
receives exactly the corresponding source entry, and afterwards every
walked file's destination path exists. -/
lemma sync_outer (fsI : FS) (src dst : Path)
    (hns : ¬ src <+: dst) (hnd : ¬ dst <+: src) :
    ∀ (wl : List (Path × List String)) (acc : FS × Nat) (l : FS),
      acc.1 = fsI ++ l →
      (∀ pe ∈ l, Spine dst pe.1) →
      (∀ rf ∈ wl, src <+: rf.1 ∧ lookupFS fsI rf.1 = some Entry.dir ∧ rf.2.Nodup ∧
        (∀ q, q <+: rf.1 → q ≠ rf.1 → lookupFS fsI q = some Entry.dir) ∧
        (∀ f ∈ rf.2, ∃ c m, lookupFS fsI (rf.1 ++ [f]) = some (Entry.file c m))) →
      (relsOfWalk src wl).Nodup →
      (∀ r ∈ relsOfWalk src wl, lookupFS acc.1 (dst ++ r) = lookupFS fsI (dst ++ r)) →
      ∃ l2,
        (wl.foldl (syncDirStep src dst) acc).1 = acc.1 ++ l2 ∧
        (∀ pe ∈ l2, Spine dst pe.1) ∧
        (wl.foldl (syncDirStep src dst) acc).2
          = acc.2 + (relsOfWalk src wl).countP (fun r => !existsFS fsI (dst ++ r)) ∧
        (∀ r ∈ relsOfWalk src wl,
          (existsFS fsI (dst ++ r) = false →
            lookupFS (wl.foldl (syncDirStep src dst) acc).1 (dst ++ r)
              = lookupFS fsI (src ++ r)) ∧
          existsFS (wl.foldl (syncDirStep src dst) acc).1 (dst ++ r) = true) := by
  intro wl
  induction wl with
  | nil =>
    intro acc l hacc hsp helems hndrel hstab
    exact ⟨[], by simp, by simp, by simp [relsOfWalk], by simp [relsOfWalk]⟩
  | cons rf rest ih =>
    intro acc l hacc hsp helems hndrel hstab
    obtain ⟨hpre, hdir, hfnd, hwfroot, hfiles⟩ := helems rf (List.mem_cons_self rf rest)
    have hrels_cons : relsOfWalk src (rf :: rest)
        = rf.2.map (fun f => rf.1.drop src.length ++ [f]) ++ relsOfWalk src rest := rfl
    obtain ⟨hndhead, hndrest, hdisj⟩ := List.nodup_append.mp (hrels_cons ▸ hndrel)
    have hRfiles : ∀ r ∈ relsOfWalk src (rf :: rest),
        ∃ c m, lookupFS fsI (src ++ r) = some (Entry.file c m) :=
      rels_are_files (fun x hx => ⟨(helems x hx).1, (helems x hx).2.2.2.2⟩)
    have hdd : (if rf.1.drop src.length = [] then dst else dst ++ rf.1.drop src.length)
        = dst ++ rf.1.drop src.length := by
      by_cases hrel : rf.1.drop src.length = []
      · rw [if_pos hrel, hrel, List.append_nil]
      · rw [if_neg hrel]
    obtain ⟨mkl, hfs1eq, hmkpre⟩ :
        ∃ mkl, (if existsFS acc.1 (dst ++ rf.1.drop src.length) then acc.1
                else makedirs acc.1 (dst ++ rf.1.drop src.length)) = acc.1 ++ mkl
          ∧ ∀ pe ∈ mkl, pe.1 <+: dst ++ rf.1.drop src.length := by
      by_cases hmk : existsFS acc.1 (dst ++ rf.1.drop src.length) = true
      · exact ⟨[], by rw [if_pos hmk, List.append_nil], by simp⟩
      · obtain ⟨ml, hmleq, hmlprops, -⟩ := makedirs_spec acc.1 (dst ++ rf.1.drop src.length)
        refine ⟨ml, ?_, fun pe hpe => (hmlprops pe hpe).1⟩
        rw [if_neg hmk]
        exact hmleq
    have hstep : syncDirStep src dst acc rf
        = rf.2.foldl (syncFileStep rf.1 (dst ++ rf.1.drop src.length)) (acc.1 ++ mkl, acc.2) := by
      simp only [syncDirStep, hdd]
      rw [hfs1eq]
    have hstab1 : ∀ r ∈ relsOfWalk src (rf :: rest),
        lookupFS (acc.1 ++ mkl) (dst ++ r) = lookupFS fsI (dst ++ r) := by
      intro r hr
      rw [lookupFS_append_ne (fun pe hpe =>
        no_collision_below_root hpre hdir hwfroot (hRfiles r hr) (hmkpre pe hpe))]
      exact hstab r hr
    have hsp1 : ∀ pe ∈ l ++ mkl, Spine dst pe.1 := by
      intro pe hpe
      rcases List.mem_append.mp hpe with h1 | h2
      · exact hsp pe h1
      · exact spine_of_prefix (hmkpre pe h2)
    have hacc1 : (acc.1 ++ mkl, acc.2).1 = fsI ++ (l ++ mkl) := by
      rw [← List.append_assoc, ← hacc]
    have hstab_files : ∀ f ∈ rf.2,
        lookupFS (acc.1 ++ mkl, acc.2).1 ((dst ++ rf.1.drop src.length) ++ [f])
          = lookupFS fsI ((dst ++ rf.1.drop src.length) ++ [f]) := by
      intro f hf
      have hmem : rf.1.drop src.length ++ [f] ∈ relsOfWalk src (rf :: rest) := by
        rw [hrels_cons]
        exact List.mem_append.mpr (Or.inl (List.mem_map.mpr ⟨f, hf, rfl⟩))
      have hh := hstab1 _ hmem
      rwa [← List.append_assoc] at hh
    obtain ⟨il2, ih1, ih2, ih3, ih4⟩ := sync_inner fsI src dst hns hnd rf.1
      (dst ++ rf.1.drop src.length) hpre (List.prefix_append dst _) rf.2
      (acc.1 ++ mkl, acc.2) (l ++ mkl) hacc1 hsp1 hfnd hfiles hstab_files
    have haccI : (rf.2.foldl (syncFileStep rf.1 (dst ++ rf.1.drop src.length))
        (acc.1 ++ mkl, acc.2)).1 = fsI ++ (l ++ mkl ++ il2) := by
      rw [ih1, hacc1]
      simp [List.append_assoc]
    have hspI : ∀ pe ∈ l ++ mkl ++ il2, Spine dst pe.1 := by
      intro pe hpe
      rcases List.mem_append.mp hpe with h1 | h2
      · exact hsp1 pe h1
      · obtain ⟨f, hf, hp⟩ := ih2 pe h2
        exact Or.inl (by
          rw [hp]
          exact (List.prefix_append dst _).trans (List.prefix_append _ [f]))
    have hstabR : ∀ r ∈ relsOfWalk src rest,
        lookupFS (rf.2.foldl (syncFileStep rf.1 (dst ++ rf.1.drop src.length))
          (acc.1 ++ mkl, acc.2)).1 (dst ++ r) = lookupFS fsI (dst ++ r) := by
      intro r hr
      rw [ih1]
      rw [lookupFS_append_ne ?hne]
      · exact hstab1 r (by rw [hrels_cons]; exact List.mem_append.mpr (Or.inr hr))
      case hne =>
        intro pe hpe heq
        obtain ⟨f, hf, hp⟩ := ih2 pe hpe
        rw [hp, List.append_assoc] at heq
        have hreq : rf.1.drop src.length ++ [f] = r := List.append_cancel_left heq
        exact hdisj (List.mem_map.mpr ⟨f, hf, hreq⟩) hr
    obtain ⟨rl2, r1, r2, r3, r4⟩ := ih (rf.2.foldl (syncFileStep rf.1
        (dst ++ rf.1.drop src.length)) (acc.1 ++ mkl, acc.2)) (l ++ mkl ++ il2)
      haccI hspI (fun x hx => helems x (List.mem_cons_of_mem rf hx)) hndrest hstabR
    refine ⟨mkl ++ il2 ++ rl2, ?_, ?_, ?_, ?_⟩
    · rw [List.foldl_cons, hstep, r1, ih1]
      simp [List.append_assoc]
    · intro pe hpe
      rcases List.mem_append.mp hpe with h12 | h3
      · rcases List.mem_append.mp h12 with h1 | h2
        · exact spine_of_prefix (hmkpre pe h1)
        · obtain ⟨f, hf, hp⟩ := ih2 pe h2
          exact Or.inl (by
            rw [hp]
            exact (List.prefix_append dst _).trans (List.prefix_append _ [f]))
      · exact r2 pe h3
    · rw [List.foldl_cons, hstep, r3, ih3, hrels_cons, List.countP_append, List.countP_map]
      have hcong : List.countP ((fun r => !existsFS fsI (dst ++ r))
            ∘ fun f => rf.1.drop src.length ++ [f]) rf.2
          = List.countP (fun f => !existsFS fsI ((dst ++ rf.1.drop src.length) ++ [f])) rf.2 := by
        apply List.countP_congr
        intro f hf
        simp only [Function.comp_apply]
        rw [List.append_assoc]
      rw [hcong]
      omega
    · intro r hr
      rw [List.foldl_cons, hstep]
      rw [hrels_cons] at hr
      rcases List.mem_append.mp hr with hhead | hrest
      · obtain ⟨f, hf, rfl⟩ := List.mem_map.mp hhead
        have h4 := ih4 f hf
        have habs : dst ++ (rf.1.drop src.length ++ [f])
            = (dst ++ rf.1.drop src.length) ++ [f] := by
          rw [List.append_assoc]
        constructor
        · intro hfalse
          rw [habs] at hfalse ⊢
          rw [r1, lookupFS_append_left rl2 h4.2, h4.1 hfalse]
          rw [← List.append_assoc src, prefix_append_drop hpre]
        · rw [habs, r1]
          exact existsFS_append_left rl2 h4.2
      · exact r4 r hrest


/-- Well-formedness of a filesystem state: paths are unique and every
proper prefix of an entry's path is a directory entry (a real filesystem
always satisfies this; it is what makes os.walk reach every entry). -/
def wfFS (fs : FS) : Prop :=
  (fs.map Prod.fst).Nodup ∧
  ∀ pe ∈ fs, ∀ q ∈ prefixesOf pe.1, q ≠ pe.1 → lookupFS fs q = some Entry.dir

/-- Cleanliness of the destination side for one sync run: no regular
file sits at the destination root, on its ancestor chain, or at a proper
prefix of any destination path the run will write.  On states violating
this, CPython's os.makedirs or shutil.copy2 would raise inside the walk
(the embedding totalizes those calls), so the sync theorems carry this
hypothesis to restrict themselves to runs the code can actually finish. -/
def destClean (fs : FS) (src dst : Path) : Prop :=
  (∀ q ∈ prefixesOf dst, lookupFS fs q = none ∨ lookupFS fs q = some Entry.dir) ∧
  ∀ r ∈ relsOfWalk src (walkFS fs src), ∀ q ∈ prefixesOf (dst ++ r), q ≠ dst ++ r →
    lookupFS fs q = none ∨ lookupFS fs q = some Entry.dir

/-- Elementwise facts sync_outer needs about the directories and files a
walk of a well-formed filesystem lists. -/
lemma walk_elems_wf {fs : FS} {src : Path} (hwf : wfFS fs) :
    ∀ rf ∈ walkFS fs src, src <+: rf.1 ∧ lookupFS fs rf.1 = some Entry.dir ∧ rf.2.Nodup ∧
      (∀ q, q <+: rf.1 → q ≠ rf.1 → lookupFS fs q = some Entry.dir) ∧
      (∀ f ∈ rf.2, ∃ c m, lookupFS fs (rf.1 ++ [f]) = some (Entry.file c m)) := by
  intro rf hrf
  obtain ⟨hpre, hdir, hfeq⟩ := walkFS_elem hwf.1 hrf
  refine ⟨hpre, hdir, ?_, ?_, ?_⟩
  · rw [hfeq]
    exact childFiles_nodup hwf.1
  · intro q hq hne
    exact hwf.2 (rf.1, Entry.dir) (mem_of_lookupFS hdir) q (mem_prefixesOf.mpr hq) hne
  · intro f hf
    rw [hfeq] at hf
    obtain ⟨c, m, hmem⟩ := childFiles_mem.mp hf
    exact ⟨c, m, lookupFS_of_mem hwf.1 hmem⟩

lemma ne_append_of_prefix {q dst r : Path} (hq : q <+: dst) (hr : r ≠ []) :
    q ≠ dst ++ r := by
  intro heq
  have hlen := congrArg List.length heq
  rw [List.length_append] at hlen
  have h1 : q.length ≤ dst.length := hq.length_le
  have h2 : 0 < r.length := List.length_pos.mpr hr
  omega

/-- Full characterization of one sync_folders run on a well-formed state
whose source and destination roots are incomparable: the filesystem only
grows by entries on the destination spine, the destination root exists
afterwards, the counter counts exactly the walked files whose
destination path was absent at call time, an absent destination receives
exactly the source entry (content and mtime), and every walked file's
destination path exists afterwards. -/
lemma sync_folders_char (fs : FS) (src dst : Path)
    (hwf : wfFS fs) (hns : ¬ src <+: dst) (hnd : ¬ dst <+: src) :
    ∃ l, (sync_folders fs src dst).fs = fs ++ l ∧ (∀ pe ∈ l, Spine dst pe.1) ∧
      existsFS (sync_folders fs src dst).fs dst = true ∧
      (sync_folders fs src dst).count
        = (relsOfWalk src (walkFS fs src)).countP (fun r => !existsFS fs (dst ++ r)) ∧
      ∀ r ∈ relsOfWalk src (walkFS fs src),
        (existsFS fs (dst ++ r) = false →
          lookupFS (sync_folders fs src dst).fs (dst ++ r) = lookupFS fs (src ++ r)) ∧
        existsFS (sync_folders fs src dst).fs (dst ++ r) = true := by
  obtain ⟨ml0, hfs0, hml0pre, hdst0⟩ :
      ∃ ml0, (if existsFS fs dst then fs else makedirs fs dst) = fs ++ ml0
        ∧ (∀ pe ∈ ml0, pe.1 <+: dst)
        ∧ existsFS (if existsFS fs dst then fs else makedirs fs dst) dst = true := by
    by_cases hex : existsFS fs dst = true
    · exact ⟨[], by rw [if_pos hex, List.append_nil], by simp, by rw [if_pos hex]; exact hex⟩
    · obtain ⟨ml, hmleq, hmlprops, hmlex⟩ := makedirs_spec fs dst
      exact ⟨ml, by rw [if_neg hex]; exact hmleq, fun pe hpe => (hmlprops pe hpe).1,
        by rw [if_neg hex]; exact hmlex⟩
  have hml0notsrc : ∀ pe ∈ ml0, ¬ src <+: pe.1 := by
    intro pe hpe hcon
    exact hns (hcon.trans (hml0pre pe hpe))
  have hwalk0 : walkFS (fs ++ ml0) src = walkFS fs src := walkFS_append hml0notsrc
  have hstab0 : ∀ r ∈ relsOfWalk src (walkFS fs src),
      lookupFS (fs ++ ml0) (dst ++ r) = lookupFS fs (dst ++ r) := by
    intro r hr
    exact lookupFS_append_ne (fun pe hpe =>
      ne_append_of_prefix (hml0pre pe hpe) (relsOfWalk_ne_nil hr))
  have helems : ∀ rf ∈ walkFS fs src, src <+: rf.1 ∧ lookupFS fs rf.1 = some Entry.dir
      ∧ rf.2.Nodup ∧ (∀ q, q <+: rf.1 → q ≠ rf.1 → lookupFS fs q = some Entry.dir)
      ∧ (∀ f ∈ rf.2, ∃ c m, lookupFS fs (rf.1 ++ [f]) = some (Entry.file c m)) :=
    walk_elems_wf hwf
  have hndrel : (relsOfWalk src (walkFS fs src)).Nodup :=
    relsOfWalk_nodup _ (fun rf hrf => ⟨(helems rf hrf).1, (helems rf hrf).2.2.1⟩)
      (walkFS_roots_nodup hwf.1)
  obtain ⟨l2, o1, o2, o3, o4⟩ := sync_outer fs src dst hns hnd (walkFS fs src)
    ((if existsFS fs dst then fs else makedirs fs dst), 0) ml0 hfs0
    (fun pe hpe => Or.inr (hml0pre pe hpe)) helems hndrel
    (by
      intro r hr
      rw [hfs0]
      exact hstab0 r hr)
  have hfs_eq : (sync_folders fs src dst).fs
      = ((walkFS fs src).foldl (syncDirStep src dst)
          ((if existsFS fs dst then fs else makedirs fs dst), 0)).1 := by
    simp only [sync_folders]
    rw [hfs0, hwalk0]
  have hcount_eq : (sync_folders fs src dst).count
      = ((walkFS fs src).foldl (syncDirStep src dst)
          ((if existsFS fs dst then fs else makedirs fs dst), 0)).2 := by
    simp only [sync_folders]
    rw [hfs0, hwalk0]
  refine ⟨ml0 ++ l2, ?_, ?_, ?_, ?_, ?_⟩
  · rw [hfs_eq, o1, hfs0, List.append_assoc]
  · intro pe hpe
    rcases List.mem_append.mp hpe with h1 | h2
    · exact Or.inr (hml0pre pe h1)
    · exact o2 pe h2
  · rw [hfs_eq, o1]
    exact existsFS_append_left l2 hdst0
  · rw [hcount_eq, o3]
    exact Nat.zero_add _
  · intro r hr
    exact ⟨fun hfalse => by rw [hfs_eq]; exact (o4 r hr).1 hfalse,
      by rw [hfs_eq]; exact (o4 r hr).2⟩






/-- C1: for every task whose descriptor carries a source path, whatever
the clock, the archiver process, the settings and the filesystem state,
perform_backup returns normally (Except.ok): an exception raised by the
dispatched strategy never propagates past the try block, and when the
strategy does raise, the result's log carries the failed-backup record
with the error detail.  The failed Task Result of the design is exactly
this log record: the code reports outcomes on no other channel. -/
theorem C1_strategy_error_contained (clock : String → String) (archiver : Archiver)
    (task : Task) (settings : Settings) (fs : FS) (source : Path)
    (hs : task.source = some source) :
    ∃ r, perform_backup clock archiver task settings fs = Except.ok r ∧
      (existsFS fs source = true →
        ∀ e, (runStrategy (typeOf task) archiver (ensureRoot fs (destBaseOf settings)).1 source
            (destPathOf task settings source (clock (tsFormatOf settings)))
            (sevenZipOf settings) (nameOf task source)).2.2 = Except.error e →
          lerror ("Failed backup for task " ++ nameOf task source ++ ": " ++ PyErr.message e)
            ∈ r.log) := by
  simp only [perform_backup, hs]
  cases hex : existsFS fs source with
  | false =>
    rw [if_neg (by simp)]
    exact ⟨_, rfl, fun h => absurd h (by simp)⟩
  | true =>
    rw [if_pos rfl]
    cases hstrat : (runStrategy (typeOf task) archiver (ensureRoot fs (destBaseOf settings)).1 source
        (destPathOf task settings source (clock (tsFormatOf settings)))
        (sevenZipOf settings) (nameOf task source)).2.2 with
    | ok fs2 =>
      exact ⟨_, rfl, fun _ e2 he => Except.noConfusion he⟩
    | error e =>
      refine ⟨_, rfl, fun _ e2 he => ?_⟩
      cases he
      simp

/-- Witness for C1 at a concrete input on which the full-copy strategy
raises FileExistsError (the destination path already exists): the runner
still returns normally and the failure record with the error detail is in
the log. -/
theorem C1_strategy_error_contained_witness :
    ∃ r, perform_backup (fun _ => "TS") (fun _ => Except.ok (0, "", ""))
        ⟨some ["s"], some "t", none, none⟩ ⟨some ["bk"], none, none⟩
        [([], Entry.dir), (["s"], Entry.dir), (["bk"], Entry.dir), (["bk", "t_s_TS"], Entry.dir)]
        = Except.ok r
      ∧ lerror ("Failed backup for task t: FileExistsError: bk/t_s_TS") ∈ r.log := by
  obtain ⟨r, hok, hlog⟩ := C1_strategy_error_contained (fun _ => "TS")
    (fun _ => Except.ok (0, "", "")) ⟨some ["s"], some "t", none, none⟩
    ⟨some ["bk"], none, none⟩
    [([], Entry.dir), (["s"], Entry.dir), (["bk"], Entry.dir), (["bk", "t_s_TS"], Entry.dir)]
    ["s"] rfl
  exact ⟨r, hok, hlog rfl (PyErr.fileExistsError ["bk", "t_s_TS"]) rfl⟩

/-- C4: the derived backup name is name_sourcedir for the incremental
strategy, independent of the clock, and name_sourcedir_timestamp for
every other strategy (in particular the full and archive ones), where
runs at distinct formatted timestamps yield distinct names. -/
theorem C4_backup_name_rule (task : Task) (source : Path) (ts1 ts2 : String) :
    (typeOf task = "incremental" →
       backup_name (nameOf task source) (os_basename (os_normpath source)) (typeOf task) ts1
         = nameOf task source ++ "_" ++ os_basename (os_normpath source)
       ∧ backup_name (nameOf task source) (os_basename (os_normpath source)) (typeOf task) ts1
         = backup_name (nameOf task source) (os_basename (os_normpath source)) (typeOf task) ts2)
    ∧ (typeOf task ≠ "incremental" →
       backup_name (nameOf task source) (os_basename (os_normpath source)) (typeOf task) ts1
         = nameOf task source ++ "_" ++ os_basename (os_normpath source) ++ "_" ++ ts1
       ∧ (ts1 ≠ ts2 →
          backup_name (nameOf task source) (os_basename (os_normpath source)) (typeOf task) ts1
            ≠ backup_name (nameOf task source) (os_basename (os_normpath source)) (typeOf task) ts2)) := by
  constructor
  · intro h
    simp [backup_name, h]
  · intro h
    refine ⟨by simp [backup_name, if_neg h], fun hne heq => ?_⟩
    rw [backup_name, if_neg h, backup_name, if_neg h] at heq
    exact hne (string_append_cancel_left heq)

/-- Witness for C4: one incremental task keeps the same untimestamped
name across two clock readings, one full task gets distinct names. -/
theorem C4_backup_name_rule_witness :
    backup_name (nameOf ⟨some ["data", "docs"], some "docs", some "incremental", none⟩ ["data", "docs"])
        (os_basename (os_normpath ["data", "docs"]))
        (typeOf ⟨some ["data", "docs"], some "docs", some "incremental", none⟩) "T1"
      = backup_name (nameOf ⟨some ["data", "docs"], some "docs", some "incremental", none⟩ ["data", "docs"])
        (os_basename (os_normpath ["data", "docs"]))
        (typeOf ⟨some ["data", "docs"], some "docs", some "incremental", none⟩) "T2"
    ∧ backup_name (nameOf ⟨some ["m"], some "media", some "full", none⟩ ["m"])
        (os_basename (os_normpath ["m"]))
        (typeOf ⟨some ["m"], some "media", some "full", none⟩) "T1"
      ≠ backup_name (nameOf ⟨some ["m"], some "media", some "full", none⟩ ["m"])
        (os_basename (os_normpath ["m"]))
        (typeOf ⟨some ["m"], some "media", some "full", none⟩) "T2" := by
  constructor
  · exact ((C4_backup_name_rule ⟨some ["data", "docs"], some "docs", some "incremental", none⟩
      ["data", "docs"] "T1" "T2").1 rfl).2
  · exact ((C4_backup_name_rule ⟨some ["m"], some "media", some "full", none⟩
      ["m"] "T1" "T2").2 (by decide)).2 (by decide)

/-- C5: the selection policy of main.  With a task name given, the run is
a configuration error exactly when no descriptor carries that name, and
on success the launched descriptors are exactly the ones with that name,
irrespective of their run flags.  With no name given, the launched
descriptors are exactly the ones whose run flag (defaulting to true when
missing) is true. -/
theorem C5_task_selection (tasks : List Task) :
    (∀ nm, (∀ t ∈ tasks, t.name ≠ some nm) →
        tasksToRun (some nm) tasks = Except.error ("No task found with name " ++ nm))
    ∧ (∀ nm e, tasksToRun (some nm) tasks = Except.error e →
        ∀ t ∈ tasks, t.name ≠ some nm)
    ∧ (∀ nm l, tasksToRun (some nm) tasks = Except.ok l →
        ∀ t, t ∈ l ↔ (t ∈ tasks ∧ t.name = some nm))
    ∧ (∃ l, tasksToRun none tasks = Except.ok l
        ∧ ∀ t, t ∈ l ↔ (t ∈ tasks ∧ t.run.getD true = true)) := by
  refine ⟨?_, ?_, ?_, ?_⟩
  · intro nm hnone
    have hfil : tasks.filter (fun t => t.name == some nm) = [] := by
      rw [List.filter_eq_nil_iff]
      intro t ht
      simp [hnone t ht]
    simp [tasksToRun, filterByName, hfil]
  · intro nm e herr t ht hname
    have hmem : t ∈ tasks.filter (fun t => t.name == some nm) := by
      rw [List.mem_filter]
      exact ⟨ht, by simp [hname]⟩
    rcases hne : tasks.filter (fun t => t.name == some nm) with _ | ⟨a, l⟩
    · rw [hne] at hmem; simp at hmem
    · rw [tasksToRun, filterByName, hne] at herr
      simp at herr
  · intro nm l hok t
    rw [tasksToRun] at hok
    rcases hfil : tasks.filter (fun t => t.name == some nm) with _ | ⟨a, rest⟩
    · rw [filterByName, hfil] at hok; simp at hok
    · rw [filterByName, hfil] at hok
      simp only [List.isEmpty_cons, if_neg] at hok
      have hl : l = (a :: rest).filter
          (fun t => (some nm : Option String).isSome || t.run.getD true) := by
        cases hok; rfl
      subst hl
      constructor
      · intro hmem
        rw [List.mem_filter] at hmem
        have hin := hmem.1
        rw [← hfil] at hin
        rw [List.mem_filter] at hin
        exact ⟨hin.1, by simpa using hin.2⟩
      · intro hpair
        rw [List.mem_filter]
        constructor
        · rw [← hfil, List.mem_filter]
          exact ⟨hpair.1, by simp [hpair.2]⟩
        · simp
  · refine ⟨_, rfl, fun t => ?_⟩
    rw [List.mem_filter]
    simp

/-- Witness for C5: on a two-task list, a name matching nothing is the
configuration error, the name of a run=false task still selects exactly
that task, and the unnamed run selects exactly the enabled task. -/
theorem C5_task_selection_witness :
    tasksToRun (some "zzz")
        [⟨some ["x"], some "a", none, some false⟩, ⟨some ["y"], some "b", none, none⟩]
      = Except.error ("No task found with name " ++ "zzz")
    ∧ (∀ l, tasksToRun (some "a")
        [⟨some ["x"], some "a", none, some false⟩, ⟨some ["y"], some "b", none, none⟩]
        = Except.ok l →
        (⟨some ["x"], some "a", none, some false⟩ : Task) ∈ l) := by
  constructor
  · exact (C5_task_selection
      [⟨some ["x"], some "a", none, some false⟩, ⟨some ["y"], some "b", none, none⟩]).1
      "zzz" (by decide)
  · intro l hok
    exact ((C5_task_selection
      [⟨some ["x"], some "a", none, some false⟩, ⟨some ["y"], some "b", none, none⟩]).2.2.1
      "a" l hok ⟨some ["x"], some "a", none, some false⟩).2 ⟨by decide, rfl⟩

/-- C6: a task whose source path does not exist produces exactly the
skipped-missing-source outcome: the warning record naming the source and
the task, an unchanged filesystem (in particular the destination root is
not created) and no spawned process. -/
theorem C6_missing_source_skips (clock : String → String) (archiver : Archiver)
    (task : Task) (settings : Settings) (fs : FS) (source : Path)
    (hs : task.source = some source) (hex : existsFS fs source = false) :
    perform_backup clock archiver task settings fs
      = Except.ok { fs := fs
                    log := [lwarn ("Source directory does not exist: " ++ pathStr source
                              ++ ". Skipping task " ++ nameOf task source ++ ".")]
                    spawned := [] } := by
  simp only [perform_backup, hs]
  rw [if_neg (by simp [hex])]

/-- Witness for C6 at a concrete state with no entry at the source path:
the filesystem in the result is exactly the input one. -/
theorem C6_missing_source_skips_witness :
    perform_backup (fun _ => "TS") (fun _ => Except.ok (0, "", ""))
        ⟨some ["gone"], some "t", none, none⟩ ⟨some ["bk"], none, none⟩ [([], Entry.dir)]
      = Except.ok { fs := [([], Entry.dir)]
                    log := [lwarn ("Source directory does not exist: " ++ pathStr ["gone"]
                              ++ ". Skipping task "
                              ++ nameOf ⟨some ["gone"], some "t", none, none⟩ ["gone"] ++ ".")]
                    spawned := [] } :=
  C6_missing_source_skips (fun _ => "TS") (fun _ => Except.ok (0, "", ""))
    ⟨some ["gone"], some "t", none, none⟩ ⟨some ["bk"], none, none⟩ [([], Entry.dir)]
    ["gone"] rfl rfl

/-- C8: an archive task whose archiver exits nonzero reports the failure
together with the captured stderr text as an error record, marks the task
failed on the only outcome channel the code has (that log record), and
spawns the archiver exactly once, so the invocation is not retried. -/
theorem C8_zip_failure_reported (clock : String → String) (archiver : Archiver)
    (task : Task) (settings : Settings) (fs : FS) (source : Path)
    (rc : Int) (out err : String)
    (hs : task.source = some source) (htype : task.type = some "zip")
    (hex : existsFS fs source = true)
    (harch : archiver (zipCmd (sevenZipOf settings)
        (destPathOf task settings source (clock (tsFormatOf settings))) source)
      = Except.ok (rc, out, err))
    (hrc : rc ≠ 0) :
    ∃ r, perform_backup clock archiver task settings fs = Except.ok r
      ∧ r.spawned = [zipCmd (sevenZipOf settings)
          (destPathOf task settings source (clock (tsFormatOf settings))) source]
      ∧ lerror ("7-Zip failed for " ++ pathStr source ++ ": " ++ err) ∈ r.log := by
  have hts : typeOf task = "zip" := by simp [typeOf, htype]
  simp only [perform_backup, hs]
  rw [if_pos hex, hts]
  rw [runStrategy_zip archiver _ source _ _ _ rc out err harch hrc]
  exact ⟨_, rfl, rfl, by simp⟩

/-- Witness for C8: a concrete zip task whose archiver exits 2 with
stderr boom; exactly one spawned command, and the error record carries
boom. -/
theorem C8_zip_failure_reported_witness :
    ∃ r, perform_backup (fun _ => "TS") (fun _ => Except.ok (2, "", "boom"))
        ⟨some ["s"], some "t", some "zip", none⟩ ⟨some ["bk"], none, none⟩
        [([], Entry.dir), (["s"], Entry.dir), (["bk"], Entry.dir)]
        = Except.ok r
      ∧ r.spawned = [zipCmd (sevenZipOf ⟨some ["bk"], none, none⟩)
          (destPathOf ⟨some ["s"], some "t", some "zip", none⟩ ⟨some ["bk"], none, none⟩
            ["s"] ((fun (_ : String) => "TS") (tsFormatOf ⟨some ["bk"], none, none⟩))) ["s"]]
      ∧ lerror ("7-Zip failed for " ++ pathStr ["s"] ++ ": " ++ "boom") ∈ r.log :=
  C8_zip_failure_reported (fun _ => "TS") (fun _ => Except.ok (2, "", "boom"))
    ⟨some ["s"], some "t", some "zip", none⟩ ⟨some ["bk"], none, none⟩
    [([], Entry.dir), (["s"], Entry.dir), (["bk"], Entry.dir)] ["s"]
    2 "" "boom" rfl rfl rfl rfl (by decide)

/-- C9: a task whose type key is missing or is anything other than the
zip and incremental keys of the dispatcher (in particular the literal
strings full and archive) runs the full recursive-copy strategy: no
process is spawned, the resulting filesystem is exactly the copytree
outcome (with the try/except fallback), and the destination path carries
the timestamped name. -/
theorem C9_unknown_type_full_copy (clock : String → String) (archiver : Archiver)
    (task : Task) (settings : Settings) (fs : FS) (source : Path)
    (hs : task.source = some source) (hex : existsFS fs source = true)
    (h1 : typeOf task ≠ "zip") (h2 : typeOf task ≠ "incremental") :
    ∃ r, perform_backup clock archiver task settings fs = Except.ok r
      ∧ r.spawned = []
      ∧ r.fs = recoverFS (ensureRoot fs (destBaseOf settings)).1
          (copytree (ensureRoot fs (destBaseOf settings)).1 source
            (destPathOf task settings source (clock (tsFormatOf settings))))
      ∧ destPathOf task settings source (clock (tsFormatOf settings))
          = destBaseOf settings ++ [nameOf task source ++ "_" ++ os_basename (os_normpath source)
              ++ "_" ++ clock (tsFormatOf settings)] := by
  have hother := runStrategy_other (typeOf task) archiver (ensureRoot fs (destBaseOf settings)).1
    source (destPathOf task settings source (clock (tsFormatOf settings)))
    (sevenZipOf settings) (nameOf task source) h1 h2
  have hshape : destPathOf task settings source (clock (tsFormatOf settings))
      = destBaseOf settings ++ [nameOf task source ++ "_" ++ os_basename (os_normpath source)
          ++ "_" ++ clock (tsFormatOf settings)] := by
    simp [destPathOf, backup_name, if_neg h2]
  simp only [perform_backup, hs]
  rw [if_pos hex]
  cases hstrat : (runStrategy (typeOf task) archiver (ensureRoot fs (destBaseOf settings)).1 source
      (destPathOf task settings source (clock (tsFormatOf settings)))
      (sevenZipOf settings) (nameOf task source)).2.2 with
  | ok fs2 =>
    refine ⟨_, rfl, ?_, ?_, hshape⟩
    · simp [hother.1]
    · rw [hstrat] at hother
      simp [recoverFS, ← hother.2]
  | error e =>
    refine ⟨_, rfl, ?_, ?_, hshape⟩
    · simp [hother.1]
    · rw [hstrat] at hother
      simp [recoverFS, ← hother.2]

/-- Witness for C9, applied at the two literal strings the claim calls
out: type full and type archive both dispatch to the full copy with a
timestamped destination. -/
theorem C9_unknown_type_full_copy_witness :
    (∃ r, perform_backup (fun _ => "TS") (fun _ => Except.ok (0, "", ""))
        ⟨some ["s"], some "t", some "full", none⟩ ⟨some ["bk"], none, none⟩
        [([], Entry.dir), (["s"], Entry.dir)]
        = Except.ok r
      ∧ r.spawned = []
      ∧ r.fs = recoverFS (ensureRoot [([], Entry.dir), (["s"], Entry.dir)]
            (destBaseOf ⟨some ["bk"], none, none⟩)).1
          (copytree (ensureRoot [([], Entry.dir), (["s"], Entry.dir)]
              (destBaseOf ⟨some ["bk"], none, none⟩)).1 ["s"]
            (destPathOf ⟨some ["s"], some "t", some "full", none⟩ ⟨some ["bk"], none, none⟩
              ["s"] ((fun (_ : String) => "TS") (tsFormatOf ⟨some ["bk"], none, none⟩))))
      ∧ destPathOf ⟨some ["s"], some "t", some "full", none⟩ ⟨some ["bk"], none, none⟩
            ["s"] ((fun (_ : String) => "TS") (tsFormatOf ⟨some ["bk"], none, none⟩))
          = destBaseOf ⟨some ["bk"], none, none⟩
            ++ [nameOf ⟨some ["s"], some "t", some "full", none⟩ ["s"] ++ "_"
                ++ os_basename (os_normpath ["s"]) ++ "_"
                ++ ((fun (_ : String) => "TS") (tsFormatOf ⟨some ["bk"], none, none⟩))])
    ∧ (∃ r, perform_backup (fun _ => "TS") (fun _ => Except.ok (0, "", ""))
        ⟨some ["s"], some "t", some "archive", none⟩ ⟨some ["bk"], none, none⟩
        [([], Entry.dir), (["s"], Entry.dir)]
        = Except.ok r ∧ r.spawned = []) := by
  constructor
  · exact C9_unknown_type_full_copy (fun _ => "TS") (fun _ => Except.ok (0, "", ""))
      ⟨some ["s"], some "t", some "full", none⟩ ⟨some ["bk"], none, none⟩
      [([], Entry.dir), (["s"], Entry.dir)] ["s"] rfl rfl (by decide) (by decide)
  · obtain ⟨r, hok, hsp, -, -⟩ := C9_unknown_type_full_copy (fun _ => "TS")
      (fun _ => Except.ok (0, "", ""))
      ⟨some ["s"], some "t", some "archive", none⟩ ⟨some ["bk"], none, none⟩
      [([], Entry.dir), (["s"], Entry.dir)] ["s"] rfl rfl (by decide) (by decide)
    exact ⟨r, hok, hsp⟩

/-- C10: a task descriptor with no source entry makes perform_backup
raise TypeError at the name-defaulting line (dict.get evaluates its
default argument eagerly, so os.path.basename(None) runs even when a
name is present), before the failure-isolation try block: the call
itself errors instead of returning a skipped or failed result, and in
main this exception propagates through asyncio.gather into the
orchestrator. -/
theorem C10_missing_source_key_raises (clock : String → String) (archiver : Archiver)
    (task : Task) (settings : Settings) (fs : FS) (hs : task.source = none) :
    perform_backup clock archiver task settings fs
      = Except.error (PyErr.typeError "expected str, bytes or os.PathLike object, not NoneType") := by
  simp only [perform_backup, hs]

/-- Witness for C10 at a concrete descriptor that has a name but no
source. -/
theorem C10_missing_source_key_raises_witness :
    perform_backup (fun _ => "TS") (fun _ => Except.ok (0, "", ""))
        ⟨none, some "named", some "incremental", some true⟩ ⟨some ["bk"], none, none⟩
        [([], Entry.dir)]
      = Except.error (PyErr.typeError "expected str, bytes or os.PathLike object, not NoneType") :=
  C10_missing_source_key_raises (fun _ => "TS") (fun _ => Except.ok (0, "", ""))
    ⟨none, some "named", some "incremental", some true⟩ ⟨some ["bk"], none, none⟩
    [([], Entry.dir)] rfl


lemma rels_nodup_wf {fs : FS} {src : Path} (hwf : wfFS fs) :
    (relsOfWalk src (walkFS fs src)).Nodup :=
  relsOfWalk_nodup _ (fun rf hrf => ⟨(walk_elems_wf hwf rf hrf).1, (walk_elems_wf hwf rf hrf).2.2.1⟩)
    (walkFS_roots_nodup hwf.1)

lemma runStrategy_incremental (archiver : Archiver) (fs : FS) (source dest_path : Path)
    (seven_zip name : String) :
    runStrategy "incremental" archiver fs source dest_path seven_zip name
      = ((sync_folders fs source dest_path).log
          ++ [linfo ("Successfully synced " ++ pathStr source ++ " to " ++ pathStr dest_path)],
         [], Except.ok (sync_folders fs source dest_path).fs) := by
  simp [runStrategy]



/-- C2, counterexample to the claim as stated: the claim gates the copy
on whether a file exists at the destination relative path, but the code
checks os.path.exists, which is also true for a directory.  Here the
source file a is listed by the walk, no file sits at the destination
relative path (a directory does), and still nothing is copied: the
counter stays zero and the destination entry is untouched. -/
theorem C2_counterexample_dir_blocks_copy :
    (["a"] : Path) ∈ relsOfWalk ["s"]
      (walkFS [([], Entry.dir), (["s"], Entry.dir), (["s", "a"], Entry.file "A" 1),
        (["d"], Entry.dir), (["d", "a"], Entry.dir)] ["s"])
    ∧ lookupFS [([], Entry.dir), (["s"], Entry.dir), (["s", "a"], Entry.file "A" 1),
        (["d"], Entry.dir), (["d", "a"], Entry.dir)] (["s"] ++ ["a"])
        = some (Entry.file "A" 1)
    ∧ lookupFS [([], Entry.dir), (["s"], Entry.dir), (["s", "a"], Entry.file "A" 1),
        (["d"], Entry.dir), (["d", "a"], Entry.dir)] (["d"] ++ ["a"]) = some Entry.dir
    ∧ (sync_folders [([], Entry.dir), (["s"], Entry.dir), (["s", "a"], Entry.file "A" 1),
        (["d"], Entry.dir), (["d", "a"], Entry.dir)] ["s"] ["d"]).count = 0
    ∧ lookupFS (sync_folders [([], Entry.dir), (["s"], Entry.dir), (["s", "a"], Entry.file "A" 1),
        (["d"], Entry.dir), (["d", "a"], Entry.dir)] ["s"] ["d"]).fs (["d"] ++ ["a"])
        = some Entry.dir := by
  refine ⟨by decide, rfl, rfl, rfl, rfl⟩

/-- C2 (amended): presence of any entry, file or directory, at the
destination relative path gates the copy.  On a well-formed state with
incomparable source and destination roots (and a clean destination
spine, which keeps the embedding inside the behavior CPython finishes
without raising), sync_folders copies a walked source file if and only
if no entry sits at its destination path: an absent destination receives
exactly the source entry (content and modification time) and is counted,
while a present destination entry is left untouched, with no content
comparison and no staleness check. -/
theorem C2_copy_gated_by_entry_presence (fs : FS) (src dst : Path)
    (hwf : wfFS fs) (hns : ¬ src <+: dst) (hnd : ¬ dst <+: src)
    (_hclean : destClean fs src dst) :
    (sync_folders fs src dst).count
      = (relsOfWalk src (walkFS fs src)).countP (fun r => !existsFS fs (dst ++ r))
    ∧ ∀ r ∈ relsOfWalk src (walkFS fs src),
        (existsFS fs (dst ++ r) = false →
          lookupFS (sync_folders fs src dst).fs (dst ++ r) = lookupFS fs (src ++ r))
        ∧ (existsFS fs (dst ++ r) = true →
          lookupFS (sync_folders fs src dst).fs (dst ++ r) = lookupFS fs (dst ++ r)) := by
  obtain ⟨l, h1, hsp, hdstex, hcnt, hchar⟩ := sync_folders_char fs src dst hwf hns hnd
  refine ⟨hcnt, fun r hr => ⟨(hchar r hr).1, fun hpres => ?_⟩⟩
  rw [h1]
  exact lookupFS_append_left l hpres

/-- Witness for C2 at two concrete states: an absent destination path
receives exactly the source entry and is counted; a destination path
already holding a (different) file keeps it, uncopied and unchanged. -/
theorem C2_copy_gated_by_entry_presence_witness :
    (lookupFS (sync_folders [([], Entry.dir), (["s"], Entry.dir),
        (["s", "a"], Entry.file "A" 1), (["d"], Entry.dir)] ["s"] ["d"]).fs (["d"] ++ ["a"])
      = lookupFS [([], Entry.dir), (["s"], Entry.dir), (["s", "a"], Entry.file "A" 1),
        (["d"], Entry.dir)] (["s"] ++ ["a"]))
    ∧ (sync_folders [([], Entry.dir), (["s"], Entry.dir), (["s", "a"], Entry.file "A" 1),
        (["d"], Entry.dir)] ["s"] ["d"]).count = 1
    ∧ lookupFS (sync_folders [([], Entry.dir), (["s"], Entry.dir),
        (["s", "a"], Entry.file "A" 1), (["d"], Entry.dir), (["d", "a"], Entry.file "OLD" 0)]
        ["s"] ["d"]).fs (["d"] ++ ["a"])
      = lookupFS [([], Entry.dir), (["s"], Entry.dir), (["s", "a"], Entry.file "A" 1),
        (["d"], Entry.dir), (["d", "a"], Entry.file "OLD" 0)] (["d"] ++ ["a"]) := by
  obtain ⟨hcnt1, hchar1⟩ := C2_copy_gated_by_entry_presence
    [([], Entry.dir), (["s"], Entry.dir), (["s", "a"], Entry.file "A" 1), (["d"], Entry.dir)]
    ["s"] ["d"] (by unfold wfFS; decide) (by decide) (by decide) (by unfold destClean; decide)
  obtain ⟨hcnt2, hchar2⟩ := C2_copy_gated_by_entry_presence
    [([], Entry.dir), (["s"], Entry.dir), (["s", "a"], Entry.file "A" 1), (["d"], Entry.dir),
      (["d", "a"], Entry.file "OLD" 0)]
    ["s"] ["d"] (by unfold wfFS; decide) (by decide) (by decide) (by unfold destClean; decide)
  refine ⟨(hchar1 ["a"] (by decide)).1 rfl, hcnt1.trans (by decide),
    (hchar2 ["a"] (by decide)).2 rfl⟩

/-- C3: running sync_folders twice in a row over a stable source tree
copies zero files the second time.  The incomparability of the roots is
what keeps the first run from mutating its own source tree, matching the
claim's premise that the source is unchanged between the runs. -/
theorem C3_sync_idempotent (fs : FS) (src dst : Path)
    (hwf : wfFS fs) (hns : ¬ src <+: dst) (hnd : ¬ dst <+: src)
    (_hclean : destClean fs src dst) :
    (sync_folders (sync_folders fs src dst).fs src dst).count = 0 := by
  obtain ⟨l, h1, hsp, hdstex, hcnt, hchar⟩ := sync_folders_char fs src dst hwf hns hnd
  set fs1 := (sync_folders fs src dst).fs with hfs1def
  have hnotsrc : ∀ pe ∈ l, ¬ src <+: pe.1 :=
    fun pe hpe => not_src_prefix_of_spine hns hnd (hsp pe hpe)
  have hwalk1 : walkFS fs1 src = walkFS fs src := by
    rw [h1]
    exact walkFS_append hnotsrc
  have helems2 : ∀ rf ∈ walkFS fs src,
      src <+: rf.1 ∧ lookupFS fs1 rf.1 = some Entry.dir
      ∧ rf.2.Nodup
      ∧ (∀ q, q <+: rf.1 → q ≠ rf.1 →
          lookupFS fs1 q = some Entry.dir)
      ∧ (∀ f ∈ rf.2, ∃ c m,
          lookupFS fs1 (rf.1 ++ [f]) = some (Entry.file c m)) := by
    intro rf hrf
    obtain ⟨hpre, hdir, hfnd, hwfroot, hfiles⟩ := walk_elems_wf hwf rf hrf
    refine ⟨hpre, ?_, hfnd, ?_, ?_⟩
    · rw [h1, lookupFS_stable_notpre hpre hnotsrc]
      exact hdir
    · intro q hq hne
      have hdirq := hwfroot q hq hne
      rw [h1, lookupFS_append_left l (by rw [existsFS, hdirq]; rfl)]
      exact hdirq
    · intro f hf
      obtain ⟨c, m, hlf⟩ := hfiles f hf
      refine ⟨c, m, ?_⟩
      rw [h1, lookupFS_stable_notpre (hpre.trans (List.prefix_append rf.1 [f])) hnotsrc]
      exact hlf
  obtain ⟨l2, o1, o2, o3, o4⟩ := sync_outer fs1 src dst hns hnd
    (walkFS fs src) (fs1, 0) []
    (by rw [List.append_nil]) (by simp) helems2 (rels_nodup_wf hwf) (fun r hr => rfl)
  have hcount_eq2 : (sync_folders fs1 src dst).count
      = ((walkFS fs src).foldl (syncDirStep src dst) (fs1, 0)).2 := by
    simp only [sync_folders]
    rw [if_pos hdstex, hwalk1]
  rw [hcount_eq2, o3]
  have hzero : (relsOfWalk src (walkFS fs src)).countP
      (fun r => !existsFS fs1 (dst ++ r)) = 0 := by
    rw [List.countP_eq_zero]
    intro r hr
    rw [(hchar r hr).2]
    simp
  rw [hzero]

/-- Witness for C3: on a one-file source the first run copies one file
and the second run copies none. -/
theorem C3_sync_idempotent_witness :
    (sync_folders [([], Entry.dir), (["s"], Entry.dir), (["s", "a"], Entry.file "A" 1),
        (["d"], Entry.dir)] ["s"] ["d"]).count = 1
    ∧ (sync_folders (sync_folders [([], Entry.dir), (["s"], Entry.dir),
        (["s", "a"], Entry.file "A" 1), (["d"], Entry.dir)] ["s"] ["d"]).fs
        ["s"] ["d"]).count = 0 :=
  ⟨rfl, C3_sync_idempotent
    [([], Entry.dir), (["s"], Entry.dir), (["s", "a"], Entry.file "A" 1), (["d"], Entry.dir)]
    ["s"] ["d"] (by unfold wfFS; decide) (by decide) (by decide) (by unfold destClean; decide)⟩



/-- C7, counterexample to the claim as stated: the claim says sync_folders
returns the count of newly copied files, but the Python function has no
return statement and returns None.  On this input one file is copied, the
internal counter ends at 1, and the returned value is still None, not 1. -/
theorem C7_counterexample_returns_none :
    (sync_folders [([], Entry.dir), (["s"], Entry.dir), (["s", "a"], Entry.file "A" 1),
        (["d"], Entry.dir)] ["s"] ["d"]).count = 1
    ∧ (sync_folders [([], Entry.dir), (["s"], Entry.dir), (["s", "a"], Entry.file "A" 1),
        (["d"], Entry.dir)] ["s"] ["d"]).ret = none
    ∧ (sync_folders [([], Entry.dir), (["s"], Entry.dir), (["s", "a"], Entry.file "A" 1),
        (["d"], Entry.dir)] ["s"] ["d"]).ret
        ≠ some (sync_folders [([], Entry.dir), (["s"], Entry.dir),
            (["s", "a"], Entry.file "A" 1), (["d"], Entry.dir)] ["s"] ["d"]).count := by
  refine ⟨rfl, rfl, by decide⟩

/-- C7 (amended): sync_folders computes the total count of newly copied
files internally and reports it only through its log record (a zero
count produces the distinct no-new-files record); the function itself
returns None, and perform_backup, whose incremental branch discards the
call's value, reports no count either beyond embedding the sync log
records in its own log. -/
theorem C7_count_logged_not_returned (fs : FS) (src dst : Path)
    (hwf : wfFS fs) (hns : ¬ src <+: dst) (hnd : ¬ dst <+: src)
    (_hclean : destClean fs src dst) :
    (sync_folders fs src dst).ret = none
    ∧ (sync_folders fs src dst).count
        = (relsOfWalk src (walkFS fs src)).countP (fun r => !existsFS fs (dst ++ r))
    ∧ (sync_folders fs src dst).log
        = [if (sync_folders fs src dst).count > 0 then
             linfo ("Incremental backup: Copied " ++ toString (sync_folders fs src dst).count
               ++ " new files.")
           else linfo "Incremental backup: No new files to copy."]
    ∧ ∀ (clock : String → String) (archiver : Archiver) (task : Task) (settings : Settings)
        (fs2 : FS) (source : Path), task.source = some source → typeOf task = "incremental" →
        existsFS fs2 source = true →
        ∃ r, perform_backup clock archiver task settings fs2 = Except.ok r ∧
          ∀ msg ∈ (sync_folders (ensureRoot fs2 (destBaseOf settings)).1 source
              (destPathOf task settings source (clock (tsFormatOf settings)))).log,
            msg ∈ r.log := by
  obtain ⟨l, h1, hsp, hdstex, hcnt, hchar⟩ := sync_folders_char fs src dst hwf hns hnd
  refine ⟨rfl, hcnt, rfl, ?_⟩
  intro clock archiver task settings fs2 source hs htype hex
  simp only [perform_backup, hs]
  rw [if_pos hex, htype]
  rw [runStrategy_incremental]
  refine ⟨_, rfl, ?_⟩
  intro msg hmsg
  simp only [List.mem_append, List.mem_singleton]
  exact Or.inl (Or.inr (Or.inl hmsg))

/-- Witness for C7: on a one-file source the counter ends at one while
the return value is None, and a concrete incremental perform_backup run
carries the copied-one-file record in its result log. -/
theorem C7_count_logged_not_returned_witness :
    (sync_folders [([], Entry.dir), (["s"], Entry.dir), (["s", "a"], Entry.file "A" 1),
        (["d"], Entry.dir)] ["s"] ["d"]).ret = none
    ∧ (sync_folders [([], Entry.dir), (["s"], Entry.dir), (["s", "a"], Entry.file "A" 1),
        (["d"], Entry.dir)] ["s"] ["d"]).count = 1
    ∧ ∃ r, perform_backup (fun _ => "TS") (fun _ => Except.ok (0, "", ""))
        ⟨some ["s"], some "t", some "incremental", none⟩ ⟨some ["d"], none, none⟩
        [([], Entry.dir), (["s"], Entry.dir), (["s", "a"], Entry.file "A" 1), (["d"], Entry.dir)]
        = Except.ok r ∧
        ∀ msg ∈ (sync_folders (ensureRoot [([], Entry.dir), (["s"], Entry.dir),
            (["s", "a"], Entry.file "A" 1), (["d"], Entry.dir)]
            (destBaseOf ⟨some ["d"], none, none⟩)).1 ["s"]
            (destPathOf ⟨some ["s"], some "t", some "incremental", none⟩
              ⟨some ["d"], none, none⟩ ["s"]
              ((fun (_ : String) => "TS") (tsFormatOf ⟨some ["d"], none, none⟩)))).log,
          msg ∈ r.log := by
  obtain ⟨h1, h2, h3, h4⟩ := C7_count_logged_not_returned
    [([], Entry.dir), (["s"], Entry.dir), (["s", "a"], Entry.file "A" 1), (["d"], Entry.dir)]
    ["s"] ["d"] (by unfold wfFS; decide) (by decide) (by decide) (by unfold destClean; decide)
  exact ⟨h1, h2.trans (by decide), h4 (fun _ => "TS") (fun _ => Except.ok (0, "", ""))
    ⟨some ["s"], some "t", some "incremental", none⟩ ⟨some ["d"], none, none⟩
    [([], Entry.dir), (["s"], Entry.dir), (["s", "a"], Entry.file "A" 1), (["d"], Entry.dir)]
    ["s"] rfl rfl rfl⟩


end Backup

